import Mathlib

/-!
# Verification of the bun-build-watch dependency scanner and watcher

This development shallowly embeds the core of the `bun-build-watch`
repository:

* `src/find-imports.ts` — the breadth-first dependency-graph scanner
  (`findImportsOnce`, `mergePaths`, `findImports`);
* `src/dep-watcher.ts` — the `DependencyWatcher` lifecycle state machine
  (`watch` / `rescan` / `close`) and the `BuildWatcher` built on top of it.

External collaborators (the import extractor, module resolver, exclusion
matcher and the on-disk file table) are modelled by an abstract `FS`
record: `imports p` is the list of already-resolved import targets of
file `p` (the composite of `Bun.Transpiler.scanImports` and
`Bun.resolveSync`), `resolveFails p` is whether `Bun.resolveSync` throws
on some import specifier of `p` (the call has no `try`/`catch`, so such a
throw rejects the whole layer and hence the scan), `files` is the set of
paths that exist on disk, `srcExt p` is the `/\.(js|jsx|ts|tsx)$/`
extension test, `parseOk p` is whether `scanImports` succeeds, and
`excluded p` is the exclusion-glob match.  A JavaScript `Set<string>` is
modelled as a deduplicated `List String` (JS sets are insertion-ordered;
all properties proved here are membership-based and hence
order-independent), and a JavaScript `Map` as an insertion-ordered
association list.
-/

set_option maxHeartbeats 1000000

namespace BunBuildWatch

/-! ## Definitions: the ambient file system -/

/-- The ambient file system and the external collaborators of the scanner. -/
structure FS where
  /-- Paths that exist on disk (`Bun.file(p).exists()`). -/
  files : List String
  /-- The `/\.(js|jsx|ts|tsx)$/` extension test on a path. -/
  srcExt : String → Bool
  /-- Whether `transpiler.scanImports` succeeds on the file's bytes. -/
  parseOk : String → Bool
  /-- The resolved import targets of a file (extractor composed with resolver). -/
  imports : String → List String
  /-- Whether some exclusion glob matches the path. -/
  excluded : String → Bool
  /-- Whether `Bun.resolveSync` throws on some import specifier of the file
  (src/find-imports.ts lines 94-98: the call has no `try`/`catch`, so the
  throw rejects the file's layer entry and with it the whole layer). -/
  resolveFails : String → Bool

/-- `Bun.file(p).exists()`. -/
def FS.existsOn (fs : FS) (p : String) : Bool := fs.files.contains p

/-- A file is scanned for its own imports only when its extension matches,
it exists on disk and it parses; otherwise `findImportsOnce` maps it to
`undefined` (src/find-imports.ts lines 62-86). -/
def FS.expandable (fs : FS) (p : String) : Bool :=
  fs.srcExt p && fs.existsOn p && fs.parseOk p

/-- The children set of an expandable file: each resolved import target is
kept when no exclusion glob matches it and it exists on disk
(src/find-imports.ts lines 100-114); the resulting JS `Set` is modelled
as a deduplicated list. -/
def FS.childrenL (fs : FS) (p : String) : List String :=
  ((fs.imports p).filter (fun c => !fs.excluded c && fs.existsOn c)).dedup

/-! ## Definitions: JS `Set` operations on deduplicated lists -/

/-- `a.intersection(b)` on JS sets. -/
def listInter (l1 l2 : List String) : List String :=
  l1.filter (fun x => l2.contains x)

/-- `a.union(b)` on JS sets (elements of `a`, then the new ones of `b`). -/
def listUnion (l1 l2 : List String) : List String :=
  l1 ++ l2.filter (fun x => !(l1.contains x))

/-- `a.isDisjointFrom(b)` on JS sets. -/
def listDisjoint (l1 l2 : List String) : Bool :=
  l1.all (fun x => !(l2.contains x))

/-! ## Definitions: `PathsMap` — `class PathsMap extends Map<string, Set<string>>` -/

/-- A JavaScript `Map<string, Set<string>>` as an insertion-ordered
association list of deduplicated lists. -/
abbrev PathsMap := List (String × List String)

/-- `map.get(k)`. -/
def pmFind : PathsMap → String → Option (List String)
  | [], _ => none
  | (k, v) :: rest, p => if k = p then some v else pmFind rest p

/-- `map.set(k, v)`: update in place when the key is present, otherwise
append at the end (JavaScript `Map` insertion order). -/
def pmSet : PathsMap → String → List String → PathsMap
  | [], k, v => [(k, v)]
  | (k', v') :: rest, k, v =>
    if k' = k then (k, v) :: rest else (k', v') :: pmSet rest k v

/-- The key list of the map, in insertion order. -/
def pmKeys (m : PathsMap) : List String := m.map (·.1)

/-- The concatenation of all children sets across the map
(`map.values().flatMap((value) => value)`). -/
def pmValuesUnion (m : PathsMap) : List String :=
  m.foldr (fun e acc => e.2 ++ acc) []

/-! ## Definitions: the scanner -/

/-- An error aborting the scan: `cyclic` is the `TypeError`
"Cyclic import detected" thrown by `mergePaths`, carrying the parent path
and the overlapping children; `unresolvable` is the error thrown by the
uncaught `Bun.resolveSync` call (src/find-imports.ts lines 94-98) while
expanding the recorded file's imports. -/
inductive ScanError where
  | cyclic (parent : String) (overlap : List String)
  | unresolvable (parent : String)
  deriving DecidableEq

instance {ε α : Type} [DecidableEq ε] [DecidableEq α] : DecidableEq (Except ε α) := fun
  | .error a, .error b =>
    if h : a = b then .isTrue (by rw [h]) else .isFalse (by intro hc; cases hc; exact h rfl)
  | .error _, .ok _ => .isFalse (by intro hc; cases hc)
  | .ok _, .error _ => .isFalse (by intro hc; cases hc)
  | .ok a, .ok b =>
    if h : a = b then .isTrue (by rw [h]) else .isFalse (by intro hc; cases hc; exact h rfl)

/-- The successful value of one breadth-first layer: each file of the
frontier that matches the extension test, exists and parses is mapped to
its children set; the rest are dropped from the layer
(src/find-imports.ts lines 52-119). -/
def layerMap (fs : FS) (filePaths : List String) : PathsMap :=
  filePaths.filterMap fun p =>
    if fs.expandable p then some (p, fs.childrenL p) else none

/-- `findImportsOnce` (src/find-imports.ts lines 52-119): produce the
layer map, except that while a frontier file that is scanned (extension
match, exists, parses) has an import specifier on which `Bun.resolveSync`
throws, the per-file callback rejects and with it the layer's
`Promise.all` — the whole call rejects with the resolver's error
(determinised here to the first such file in frontier order). -/
def findImportsOnce (fs : FS) (filePaths : List String) : Except ScanError PathsMap :=
  match filePaths.find? (fun p => fs.expandable p && fs.resolveFails p) with
  | some p => .error (.unresolvable p)
  | none => .ok (layerMap fs filePaths)

/-- `mergePaths` (src/find-imports.ts lines 121-140): fold the freshly
found layer into the accumulated graph; a non-disjoint re-recording of a
parent raises the cyclic-import error carrying the parent and the
overlapping children. -/
def mergePaths : PathsMap → PathsMap → Except ScanError PathsMap
  | all, [] => .ok all
  | all, (p, cs) :: rest =>
    match pmFind all p with
    | none => mergePaths (pmSet all p cs) rest
    | some ex =>
      if listDisjoint ex cs then mergePaths (pmSet all p (listUnion ex cs)) rest
      else .error (.cyclic p (listInter ex cs))

/-- The frontier of the next layer: the deduplicated union of all children
across the current layer
(`new Set(foundPaths.values().flatMap((value) => value))`). -/
def frontierList (found : PathsMap) : List String :=
  (pmValuesUnion found).dedup

/-- The `while (foundPaths.size > 0)` loop of `findImports`
(src/find-imports.ts lines 149-156), with an explicit fuel for the Lean
termination argument; `scanFuel` below is proved sufficient for every
input. -/
def scanLoop (fs : FS) : Nat → PathsMap → PathsMap → Option (Except ScanError (List String))
  | 0, _, _ => none
  | fuel + 1, all, found =>
    if found.isEmpty then some (.ok (pmValuesUnion all).dedup)
    else
      match mergePaths all found with
      | .error e => some (.error e)
      | .ok all' =>
        match findImportsOnce fs (frontierList found) with
        | .error e => some (.error e)
        | .ok next => scanLoop fs fuel all' next

/-- Fuel sufficient for the loop to finish on any input (proved below). -/
def scanFuel (fs : FS) : Nat := 2 * fs.files.length + 5

/-- `findImports` (src/find-imports.ts lines 143-159): start from the
sentinel map `{"" ↦ new Set(paths)}` and iterate merge/expand; on success
return the deduplicated union of all children sets across the accumulated
graph. -/
def findImports (fs : FS) (paths : List String) : Option (Except ScanError (List String)) :=
  scanLoop fs (scanFuel fs) [] [("", paths.dedup)]

/-! ## Definitions: the effective dependency graph -/

/-- The effective import edge: `u` is scanned and `v` survives the
resolution, existence and exclusion filters of `u`'s layer. -/
def edge (fs : FS) (u v : String) : Prop :=
  fs.expandable u = true ∧ v ∈ fs.childrenL u

instance (fs : FS) (u v : String) : Decidable (edge fs u v) :=
  inferInstanceAs (Decidable (fs.expandable u = true ∧ v ∈ fs.childrenL u))

/-- A file is reachable when an entry path reaches it through effective
edges of the import graph (entries themselves included). -/
def Reaches (fs : FS) (E : List String) (v : String) : Prop :=
  ∃ x ∈ E, Relation.ReflTransGen (edge fs) x v

/-- An import cycle through `u`. -/
def CycAt (fs : FS) (u : String) : Prop :=
  ∃ v, edge fs u v ∧ Relation.ReflTransGen (edge fs) v u

/-- Some import cycle is reachable from the entry set. -/
def ReachableCycle (fs : FS) (E : List String) : Prop :=
  ∃ u, Reaches fs E u ∧ CycAt fs u

/-! ## Definitions: invariants and the termination measure of the loop -/

/-- What the accumulated graph can look like: the sentinel key holds the
entry set (possibly augmented once by the children of the sentinel path
itself), and every other key is an expandable file holding exactly its
children set. -/
def GoodAll (fs : FS) (E : List String) (all : PathsMap) : Prop :=
  (pmKeys all).Nodup ∧
  ∀ e ∈ all, (e.1 = "" ∧ (e.2 = E ∨ e.2 = listUnion E (fs.childrenL ""))) ∨
             (fs.expandable e.1 = true ∧ e.2 = fs.childrenL e.1)

/-- The joint invariant on the loop state: either we are at the very first
iteration (empty graph, sentinel frontier), or the sentinel has been
merged and the frontier is a successful layer (the `layerMap` value of
`findImportsOnce`). -/
def Inv (fs : FS) (E : List String) (all found : PathsMap) : Prop :=
  GoodAll fs E all ∧
  ((all = [] ∧ found = [("", E)]) ∨
   ("" ∈ pmKeys all ∧ (pmKeys found).Nodup ∧
    ∀ e ∈ found, fs.expandable e.1 = true ∧ e.2 = fs.childrenL e.1))

/-- The once-expanded-stays-recorded invariant: every expandable file
already discovered as a child either has its children recorded in the
graph or sits in the frontier about to be expanded. -/
def Inv3 (fs : FS) (all found : PathsMap) : Prop :=
  ∀ u, fs.expandable u = true → u ∈ pmValuesUnion all →
    (∃ v, pmFind all u = some v ∧ fs.childrenL u ⊆ v) ∨ u ∈ pmKeys found

/-- Every key the loop can ever record: the sentinel plus the expandable
files. -/
def kUniv (fs : FS) : Finset String :=
  insert "" (fs.files.filter (fun p => fs.expandable p)).toFinset

/-- The keys of a map, as a set. -/
def keysFinset (m : PathsMap) : Finset String := (pmKeys m).toFinset

/-- One unit of budget for the single in-place growth of the sentinel's
value (when the sentinel path itself is re-discovered as a child). -/
def tTag (E : List String) (all : PathsMap) : Nat :=
  if pmFind all "" = some E then 1 else 0

/-- The loop variant: keys still missing from the graph (double weight),
the sentinel-growth budget, and one unit for a non-empty frontier. -/
def mu (fs : FS) (E : List String) (all found : PathsMap) : Nat :=
  2 * ((kUniv fs) \ (keysFinset all)).card + tTag E all +
    (if found.isEmpty then 0 else 1)

/-! ## Definitions: the filesystem notifier world

`watch(filePath, cb)` from `node:fs` hands out one `FSWatcher` handle per
call; it throws when the path does not exist.  The `World` records every
handle ever created and every `.close()` call made on a handle, so that
handle-lifetime claims (one live handle per file, dispose-exactly-once)
can be stated. -/

/-- A filesystem notifier handle (`FSWatcher`), tagged with the path it
watches and a creation serial number. -/
structure Handle where
  id : Nat
  path : String
  deriving DecidableEq

/-- The global notifier state: a creation counter, every handle created and
one entry per `.close()` call made. -/
structure World where
  nextId : Nat
  created : List Handle
  disposeCalls : List Handle
  deriving DecidableEq

/-- The world before any subscription. -/
def World.init : World := ⟨0, [], []⟩

/-- A handle is live when created and not yet closed. -/
def World.live (wd : World) (h : Handle) : Prop :=
  h ∈ wd.created ∧ h ∉ wd.disposeCalls

instance (wd : World) (h : Handle) : Decidable (World.live wd h) :=
  inferInstanceAs (Decidable (h ∈ wd.created ∧ h ∉ wd.disposeCalls))

/-- `watch(p, cb)`: throws (returns `none`) when the path does not exist,
otherwise allocates a fresh handle. -/
def subscribeOne (fs : FS) (wd : World) (p : String) : Option Handle × World :=
  if fs.existsOn p then
    (some ⟨wd.nextId, p⟩,
      { wd with nextId := wd.nextId + 1, created := wd.created ++ [⟨wd.nextId, p⟩] })
  else (none, wd)

/-- `Iterator.from(paths).map((p) => watch(p, cb)).toArray()`: subscribe in
order; on the first failure the already-created handles stay allocated but
the array is never produced (they leak). -/
def subscribeAll (fs : FS) (wd : World) : List String → Option (List Handle) × World
  | [] => (some [], wd)
  | p :: rest =>
    match subscribeOne fs wd p with
    | (none, wd') => (none, wd')
    | (some h, wd') =>
      match subscribeAll fs wd' rest with
      | (none, wd'') => (none, wd'')
      | (some hs, wd'') => (some (h :: hs), wd'')

/-- `for (const watcher of hs) watcher.close()`: one `.close()` call per
handle in the list. -/
def disposeAll (wd : World) (hs : List Handle) : World :=
  { wd with disposeCalls := wd.disposeCalls ++ hs }

/-! ## Definitions: the `DependencyWatcher` state machine
(src/dep-watcher.ts lines 115-183) -/

/-- `state: "ready" | "watching" | "closed"`. -/
inductive WState where
  | ready
  | watching
  | closed
  deriving DecidableEq

/-- The fields of a `DependencyWatcher`: the entry paths, the lifecycle
state, the recorded notifier handles (`this.watchers`) and the number of
`once("close", ...)` hooks registered by past `rescan` calls (each hook
closes `this.watchers` again when the `close` event fires). -/
structure DepWatcher where
  fullPaths : List String
  state : WState
  watchers : List Handle
  closeHooks : Nat
  deriving DecidableEq

/-- A freshly constructed watcher. -/
def DepWatcher.init (paths : List String) : DepWatcher :=
  ⟨paths, .ready, [], 0⟩

/-- The events a `DependencyWatcher`/`BuildWatcher` emits. -/
inductive WEvent where
  | watch (paths : List String)
  | change (path : String)
  | close
  | build
  deriving DecidableEq

/-- The outcome of a `rescan()` call.  `errClosed` is the thrown
`Error("cannot watch a closed DependencyWatcher")`; `errScan` is a
rejection propagated from `findImports`; `errSubscribe` is the `ENOENT`
thrown by `watch()` on a missing path; `errFuel` is the (provably
unreachable) fuel exhaustion of the embedded scan loop. -/
inductive RescanResult where
  | ok (paths : List String)
  | errClosed
  | errScan (e : ScanError)
  | errSubscribe
  | errFuel
  deriving DecidableEq

/-- Whether a rescan outcome is a success. -/
def RescanResult.isOk : RescanResult → Bool
  | .ok _ => true
  | _ => false

/-- `DependencyWatcher.rescan` (src/dep-watcher.ts lines 152-171): reject
when closed; otherwise close the current handles, set the state to
`watching`, run the scan, subscribe one notifier per discovered path,
register a `once("close")` hook and emit one `watch` event.  A scan or
subscription failure happens after the state change and the disposal of
the old handles, and installs nothing. -/
def depRescan (fs : FS) (w : DepWatcher) (wd : World) :
    RescanResult × DepWatcher × World × List WEvent :=
  if w.state = .closed then (.errClosed, w, wd, [])
  else
    let wd1 := disposeAll wd w.watchers
    let w1 : DepWatcher := { w with state := .watching }
    match findImports fs w.fullPaths with
    | none => (.errFuel, w1, wd1, [])
    | some (.error e) => (.errScan e, w1, wd1, [])
    | some (.ok ps) =>
      match subscribeAll fs wd1 ps with
      | (none, wd2) => (.errSubscribe, w1, wd2, [])
      | (some hs, wd2) =>
        (.ok ps, { w1 with watchers := hs, closeHooks := w1.closeHooks + 1 }, wd2,
          [.watch ps])

/-- `DependencyWatcher.watch` (src/dep-watcher.ts lines 146-149): a no-op
returning `undefined` while watching, otherwise delegates to `rescan`. -/
def depWatch (fs : FS) (w : DepWatcher) (wd : World) :
    Option RescanResult × DepWatcher × World × List WEvent :=
  if w.state = .watching then (none, w, wd, [])
  else
    let r := depRescan fs w wd
    (some r.1, r.2.1, r.2.2.1, r.2.2.2)

/-- `DependencyWatcher.close` (src/dep-watcher.ts lines 174-182): a no-op
when already closed; otherwise close every recorded handle, transition to
`closed` and emit one `close` event — whose `once("close")` hooks
(one per past successful rescan) each close `this.watchers` once more —
then release all listeners. -/
def depClose (w : DepWatcher) (wd : World) : DepWatcher × World × List WEvent :=
  if w.state = .closed then (w, wd, [])
  else
    let wd1 := disposeAll wd w.watchers
    let wd2 := (List.range w.closeHooks).foldl (fun acc _ => disposeAll acc w.watchers) wd1
    ({ w with state := .closed, closeHooks := 0 }, wd2, [.close])

/-- `n` successive `rescan()` calls on a fresh watcher, accumulating the
emitted events. -/
def rescanN (fs : FS) (paths : List String) : Nat → DepWatcher × World × List WEvent
  | 0 => (DepWatcher.init paths, World.init, [])
  | n + 1 =>
    let s := rescanN fs paths n
    let r := depRescan fs s.1 s.2.1
    (r.2.1, r.2.2.1, s.2.2 ++ r.2.2.2)

/-- All of the first `n` rescan calls of `rescanN` succeed. -/
def rescanAllOk (fs : FS) (paths : List String) (n : Nat) : Prop :=
  ∀ i < n, ((depRescan fs (rescanN fs paths i).1 (rescanN fs paths i).2.1).1).isOk = true

/-! ## Definitions: event counting -/

/-- Whether an event is a `watch` event. -/
def WEvent.isWatch : WEvent → Bool
  | .watch _ => true
  | _ => false

/-- Whether an event is a `change` event. -/
def WEvent.isChange : WEvent → Bool
  | .change _ => true
  | _ => false

/-- Whether an event is the `close` event. -/
def WEvent.isClose : WEvent → Bool
  | .close => true
  | _ => false

/-- Whether an event is a `build` event. -/
def WEvent.isBuild : WEvent → Bool
  | .build => true
  | _ => false

/-- The number of `watch` events in a trace. -/
def countWatch (tr : List WEvent) : Nat := (tr.filter WEvent.isWatch).length

/-- The number of `change` events in a trace. -/
def countChange (tr : List WEvent) : Nat := (tr.filter WEvent.isChange).length

/-- The number of `close` events in a trace. -/
def countClose (tr : List WEvent) : Nat := (tr.filter WEvent.isClose).length

/-- The number of `build` events in a trace. -/
def countBuild (tr : List WEvent) : Nat := (tr.filter WEvent.isBuild).length

/-! ## Definitions: the `BuildWatcher`
(src/dep-watcher.ts lines 992-1039)

The constructor wires `this.once("watch", build-and-emit)`,
`this.on("change", build-and-emit)` and, under the `rescan` option,
`this.on("build", () => this.rescan())`.  The state adds the armed flag of
the `once("watch")` listener, the option flag and a count of `Bun.build`
invocations. -/

/-- A `BuildWatcher`: the underlying `DependencyWatcher` plus the build
wiring state. -/
structure BuildW where
  dep : DepWatcher
  firstWatchArmed : Bool
  rescanOpt : Bool
  buildCalls : Nat
  deriving DecidableEq

/-- A freshly constructed `BuildWatcher`. -/
def BuildW.init (paths : List String) (rescanOpt : Bool) : BuildW :=
  ⟨DepWatcher.init paths, true, rescanOpt, 0⟩

/-- A `rescan()` on a `BuildWatcher`: the inherited `DependencyWatcher`
rescan, whose `watch` event fires the still-armed `once("watch")` listener
(one `Bun.build` call and one `build` event), whose `build` event in turn
triggers one more plain rescan under the `rescan` option. -/
def bwRescan (fs : FS) (b : BuildW) (wd : World) :
    RescanResult × BuildW × World × List WEvent :=
  match depRescan fs b.dep wd with
  | (.ok ps, d1, wd1, ev1) =>
    if b.firstWatchArmed then
      let b1 : BuildW :=
        { b with dep := d1, firstWatchArmed := false, buildCalls := b.buildCalls + 1 }
      let ev2 := ev1 ++ [.build]
      if b.rescanOpt then
        let r2 := depRescan fs b1.dep wd1
        (.ok ps, { b1 with dep := r2.2.1 }, r2.2.2.1, ev2 ++ r2.2.2.2)
      else (.ok ps, b1, wd1, ev2)
    else (.ok ps, { b with dep := d1 }, wd1, ev1)
  | (res, d1, wd1, ev1) => (res, { b with dep := d1 }, wd1, ev1)

/-- A `watch()` on a `BuildWatcher` (inherited from `DependencyWatcher`):
no-op while watching, else a full rescan. -/
def bwWatch (fs : FS) (b : BuildW) (wd : World) :
    Option RescanResult × BuildW × World × List WEvent :=
  if b.dep.state = .watching then (none, b, wd, [])
  else
    let r := bwRescan fs b wd
    (some r.1, r.2.1, r.2.2.1, r.2.2.2)

/-- A `close()` on a `BuildWatcher` (inherited). -/
def bwClose (b : BuildW) (wd : World) : BuildW × World × List WEvent :=
  let r := depClose b.dep wd
  ({ b with dep := r.1 }, r.2.1, r.2.2)

/-- A native filesystem notification delivered to a handle's callback:
nothing observable happens unless the handle is live; after `close()`
all listeners are released, so a live (leaked) handle's callback emits to
nobody.  Otherwise one `change` event fires, the `change` listener runs
`Bun.build` once and emits one `build` event, and under the `rescan`
option the `build` event triggers a rescan (armed-aware: a still-armed
`once("watch")` listener fires on the rescan's `watch` event). -/
def bwNotify (fs : FS) (b : BuildW) (wd : World) (h : Handle) :
    BuildW × World × List WEvent :=
  if World.live wd h then
    if b.dep.state = .closed then (b, wd, [])
    else
      let b1 : BuildW := { b with buildCalls := b.buildCalls + 1 }
      if b.rescanOpt then
        let r := bwRescan fs b1 wd
        (r.2.1, r.2.2.1, [.change h.path, .build] ++ r.2.2.2)
      else (b1, wd, [.change h.path, .build])
  else (b, wd, [])

/-- The commands a client (or the filesystem) can issue to a
`BuildWatcher`. -/
inductive BCmd where
  | watch
  | rescan
  | close
  | notify (h : Handle)

/-- One step of the `BuildWatcher` machine, accumulating the trace. -/
def bwStep (fs : FS) (s : BuildW × World × List WEvent) : BCmd → BuildW × World × List WEvent
  | .watch =>
    let r := bwWatch fs s.1 s.2.1
    (r.2.1, r.2.2.1, s.2.2 ++ r.2.2.2)
  | .rescan =>
    let r := bwRescan fs s.1 s.2.1
    (r.2.1, r.2.2.1, s.2.2 ++ r.2.2.2)
  | .close =>
    let r := bwClose s.1 s.2.1
    (r.1, r.2.1, s.2.2 ++ r.2.2)
  | .notify h =>
    let r := bwNotify fs s.1 s.2.1 h
    (r.1, r.2.1, s.2.2 ++ r.2.2)

/-- Run a `BuildWatcher` session from construction through a list of
commands. -/
def bwRun (fs : FS) (paths : List String) (rescanOpt : Bool) (cmds : List BCmd) :
    BuildW × World × List WEvent :=
  cmds.foldl (bwStep fs) (BuildW.init paths rescanOpt, World.init, [])

/-- The build-counting invariant tying a `BuildWatcher`'s state to its
emitted trace: every `Bun.build` invocation is matched by exactly one
`build` event in the trace, the number of invocations is one for the first
`watch` event plus one per `change` event, and the `once("watch")`
listener is armed exactly while no `watch` event has fired yet. -/
def BWInv (b : BuildW) (tr : List WEvent) : Prop :=
  countBuild tr = b.buildCalls ∧
  b.buildCalls = (if 1 ≤ countWatch tr then 1 else 0) + countChange tr ∧
  (b.firstWatchArmed = true ↔ countWatch tr = 0)

/-! ## Definitions: concrete file systems for scenarios -/

/-- `a.ts` imports `b.ts`; both exist; no exclusions. -/
def fsLine : FS where
  files := ["a.ts", "b.ts"]
  srcExt := fun p => p = "a.ts" || p = "b.ts"
  parseOk := fun _ => true
  imports := fun p => if p = "a.ts" then ["b.ts"] else []
  excluded := fun _ => false
  resolveFails := fun _ => false

/-- `a.ts` imports `b.ts` and `b.ts` imports `a.ts`: a two-cycle. -/
def fsAB : FS where
  files := ["a.ts", "b.ts"]
  srcExt := fun p => p = "a.ts" || p = "b.ts"
  parseOk := fun _ => true
  imports := fun p =>
    if p = "a.ts" then ["b.ts"] else if p = "b.ts" then ["a.ts"] else []
  excluded := fun _ => false
  resolveFails := fun _ => false

/-- The two-cycle `a.ts ↔ b.ts` where `a.ts` additionally holds an import
specifier on which `Bun.resolveSync` throws. -/
def fsABRes : FS where
  files := ["a.ts", "b.ts"]
  srcExt := fun p => p = "a.ts" || p = "b.ts"
  parseOk := fun _ => true
  imports := fun p =>
    if p = "a.ts" then ["b.ts"] else if p = "b.ts" then ["a.ts"] else []
  excluded := fun _ => false
  resolveFails := fun p => p = "a.ts"

/-- An acyclic diamond re-discovered at different depths:
`a → b, c`; `b → d`; `c → e`; `e → d`; `d → f`.  The file `d` is expanded
at two different layers, so the merge-time check reports a cycle although
none exists. -/
def fsD : FS where
  files := ["a", "b", "c", "d", "e", "f"]
  srcExt := fun _ => true
  parseOk := fun _ => true
  imports := fun p =>
    if p = "a" then ["b", "c"] else
    if p = "b" then ["d"] else
    if p = "c" then ["e"] else
    if p = "e" then ["d"] else
    if p = "d" then ["f"] else []
  excluded := fun _ => false
  resolveFails := fun _ => false

/-- A topological rank for `fsD`, witnessing its acyclicity. -/
def rankD : String → Nat := fun p =>
  if p = "a" then 0 else
  if p = "b" then 1 else
  if p = "c" then 1 else
  if p = "e" then 2 else
  if p = "d" then 3 else 4

/-- A boolean edge test, used to decide acyclicity of the concrete
examples. -/
def edgeB (fs : FS) (u v : String) : Bool :=
  fs.expandable u && (fs.childrenL u).contains v

/-- An empty disk: any entry path is missing. -/
def fsGhost : FS where
  files := []
  srcExt := fun p => p = "entry.ts"
  parseOk := fun _ => true
  imports := fun _ => []
  excluded := fun _ => false
  resolveFails := fun _ => false

/-- One existing source file with no imports. -/
def fsOne : FS where
  files := ["a.ts"]
  srcExt := fun p => p = "a.ts"
  parseOk := fun _ => true
  imports := fun _ => []
  excluded := fun _ => false
  resolveFails := fun _ => false

/-! ## Lemmas on the JS set operations -/

theorem listContains_iff {l : List String} {x : String} :
    l.contains x = true ↔ x ∈ l := by
  induction l with
  | nil => simp
  | cons a rest ih =>
    simp only [List.contains_cons, Bool.or_eq_true, beq_iff_eq, List.mem_cons, ih]

theorem mem_listInter {l1 l2 : List String} {x : String} :
    x ∈ listInter l1 l2 ↔ x ∈ l1 ∧ x ∈ l2 := by
  simp [listInter, List.mem_filter, listContains_iff]

theorem mem_listUnion {l1 l2 : List String} {x : String} :
    x ∈ listUnion l1 l2 ↔ x ∈ l1 ∨ x ∈ l2 := by
  simp only [listUnion, List.mem_append, List.mem_filter, Bool.not_eq_true']
  constructor
  · rintro (h | ⟨h, _⟩)
    · exact Or.inl h
    · exact Or.inr h
  · rintro (h | h)
    · exact Or.inl h
    · by_cases h1 : x ∈ l1
      · exact Or.inl h1
      · refine Or.inr ⟨h, ?_⟩
        rw [← Bool.not_eq_true, listContains_iff]
        exact h1

theorem listDisjoint_iff {l1 l2 : List String} :
    listDisjoint l1 l2 = true ↔ ∀ x ∈ l1, x ∉ l2 := by
  simp [listDisjoint, List.all_eq_true, listContains_iff]

theorem listUnion_eq_of_subset {l1 l2 : List String} (h : ∀ x ∈ l2, x ∈ l1) :
    listUnion l1 l2 = l1 := by
  rw [listUnion, List.filter_eq_nil_iff.2, List.append_nil]
  intro x hx
  simp [listContains_iff, h x hx]

theorem listUnion_self (l : List String) : listUnion l l = l :=
  listUnion_eq_of_subset fun _ hx => hx

theorem listUnion_nil (l : List String) : listUnion l [] = l := by
  simp [listUnion]

theorem listInter_ne_nil {l1 l2 : List String} (h : listDisjoint l1 l2 = false) :
    listInter l1 l2 ≠ [] := by
  rw [listDisjoint] at h
  obtain ⟨x, hx1, hx2⟩ := by
    have := List.all_eq_false.1 h
    simpa [listContains_iff] using this
  intro hc
  have : x ∈ listInter l1 l2 := mem_listInter.2 ⟨hx1, hx2⟩
  rw [hc] at this
  simp at this

theorem listUnion_ne_left {E c : List String} (hd : listDisjoint E c = true)
    (hne : c ≠ []) : listUnion E c ≠ E := by
  have hfa : ∀ x ∈ c, x ∉ E := by
    intro x hx hxE
    exact (listDisjoint_iff.1 hd) x hxE hx
  have hfc : c.filter (fun x => !(E.contains x)) = c := by
    rw [List.filter_eq_self]
    intro x hx
    simp [listContains_iff, hfa x hx]
  intro h
  have hlen : (listUnion E c).length = E.length + c.length := by
    rw [listUnion, hfc, List.length_append]
  rw [h] at hlen
  have : c.length = 0 := by omega
  exact hne (List.length_eq_zero.1 this)

/-! ## Association-list lemmas -/

@[simp] theorem pmKeys_nil : pmKeys [] = [] := rfl

@[simp] theorem pmKeys_cons (k : String) (v : List String) (rest : PathsMap) :
    pmKeys ((k, v) :: rest) = k :: pmKeys rest := rfl

theorem mem_pmKeys_of_mem {m : PathsMap} {e : String × List String}
    (h : e ∈ m) : e.1 ∈ pmKeys m := List.mem_map_of_mem _ h

theorem pmFind_eq_none {m : PathsMap} {p : String} :
    pmFind m p = none ↔ p ∉ pmKeys m := by
  induction m with
  | nil => simp [pmFind]
  | cons e rest ih =>
    obtain ⟨k, v⟩ := e
    by_cases h : k = p
    · subst h
      simp [pmFind]
    · simp [pmFind, h, ih, List.mem_cons, Ne.symm h]

theorem pmFind_mem {m : PathsMap} {p : String} {v : List String}
    (h : pmFind m p = some v) : (p, v) ∈ m := by
  induction m with
  | nil => simp [pmFind] at h
  | cons e rest ih =>
    obtain ⟨k, w⟩ := e
    by_cases hk : k = p
    · subst hk
      simp [pmFind] at h
      simp [h]
    · simp [pmFind, hk] at h
      exact List.mem_cons_of_mem _ (ih h)

theorem pmFind_of_mem_nodup {m : PathsMap} {p : String} {v : List String}
    (hnd : (pmKeys m).Nodup) (h : (p, v) ∈ m) : pmFind m p = some v := by
  induction m with
  | nil => simp at h
  | cons e rest ih =>
    obtain ⟨k, w⟩ := e
    rw [pmKeys_cons, List.nodup_cons] at hnd
    rcases List.mem_cons.1 h with h1 | h1
    · cases h1
      simp [pmFind]
    · have hk : k ≠ p := by
        intro hkp
        subst hkp
        exact hnd.1 (mem_pmKeys_of_mem h1)
      simpa [pmFind, hk] using ih hnd.2 h1

theorem pmSet_find_self (m : PathsMap) (k : String) (v : List String) :
    pmFind (pmSet m k v) k = some v := by
  induction m with
  | nil => simp [pmSet, pmFind]
  | cons e rest ih =>
    obtain ⟨k', v'⟩ := e
    by_cases h : k' = k <;> simp [pmSet, pmFind, h, ih]

theorem pmSet_find_ne (m : PathsMap) {k p : String} (v : List String) (h : k ≠ p) :
    pmFind (pmSet m k v) p = pmFind m p := by
  induction m with
  | nil => simp [pmSet, pmFind, h]
  | cons e rest ih =>
    obtain ⟨k', v'⟩ := e
    by_cases h' : k' = k
    · subst h'
      simp [pmSet, pmFind, h]
    · by_cases h'' : k' = p
      · subst h''
        simp [pmSet, pmFind, h']
      · simp [pmSet, pmFind, h', h'', ih]

theorem pmKeys_pmSet_mem {m : PathsMap} {k : String} (v : List String)
    (h : k ∈ pmKeys m) : pmKeys (pmSet m k v) = pmKeys m := by
  induction m with
  | nil => simp at h
  | cons e rest ih =>
    obtain ⟨k', v'⟩ := e
    by_cases h' : k' = k
    · simp [pmSet, h']
    · rw [pmKeys_cons, List.mem_cons] at h
      rcases h with h | h
      · exact absurd h.symm h'
      · simp [pmSet, h', ih h]

theorem pmKeys_pmSet_not_mem {m : PathsMap} {k : String} (v : List String)
    (h : k ∉ pmKeys m) : pmKeys (pmSet m k v) = pmKeys m ++ [k] := by
  induction m with
  | nil => simp [pmSet]
  | cons e rest ih =>
    obtain ⟨k', v'⟩ := e
    rw [pmKeys_cons, List.mem_cons] at h
    push_neg at h
    simp [pmSet, Ne.symm h.1, ih h.2]

theorem mem_pmSet {m : PathsMap} {k : String} {v : List String}
    {e : String × List String} (h : e ∈ pmSet m k v) : e = (k, v) ∨ e ∈ m := by
  induction m with
  | nil => simp [pmSet] at h; simp [h]
  | cons e' rest ih =>
    obtain ⟨k', v'⟩ := e'
    by_cases h' : k' = k
    · simp [pmSet, h'] at h
      rcases h with h | h
      · exact Or.inl h
      · exact Or.inr (List.mem_cons_of_mem _ h)
    · simp [pmSet, h'] at h
      rcases h with h | h
      · exact Or.inr (by simp [h])
      · rcases ih h with h1 | h1
        · exact Or.inl h1
        · exact Or.inr (List.mem_cons_of_mem _ h1)

theorem mem_pmValuesUnion {m : PathsMap} {x : String} :
    x ∈ pmValuesUnion m ↔ ∃ e ∈ m, x ∈ e.2 := by
  induction m with
  | nil => simp [pmValuesUnion]
  | cons e rest ih =>
    simp only [pmValuesUnion, List.foldr_cons, List.mem_append] at *
    constructor
    · rintro (h | h)
      · exact ⟨e, by simp, h⟩
      · obtain ⟨e', he', hx⟩ := ih.1 h
        exact ⟨e', by simp [he'], hx⟩
    · rintro ⟨e', he', hx⟩
      rcases List.mem_cons.1 he' with h | h
      · subst h; exact Or.inl hx
      · exact Or.inr (ih.2 ⟨e', h, hx⟩)

theorem subset_pmValuesUnion_of_mem {m : PathsMap} {e : String × List String}
    (h : e ∈ m) : e.2 ⊆ pmValuesUnion m :=
  fun _ hx => mem_pmValuesUnion.2 ⟨e, h, hx⟩

theorem pmValuesUnion_pmSet_subset {m : PathsMap} {k : String} {v : List String}
    {x : String} (hx : x ∈ pmValuesUnion (pmSet m k v)) :
    x ∈ pmValuesUnion m ∨ x ∈ v := by
  obtain ⟨e, he, hxe⟩ := mem_pmValuesUnion.1 hx
  rcases mem_pmSet he with h | h
  · subst h
    exact Or.inr hxe
  · exact Or.inl (mem_pmValuesUnion.2 ⟨e, h, hxe⟩)

theorem pmValuesUnion_pmSet_sup {m : PathsMap} {k : String} {v : List String}
    (h : ∀ w, pmFind m k = some w → w ⊆ v) :
    pmValuesUnion m ⊆ pmValuesUnion (pmSet m k v) := by
  induction m with
  | nil => simp [pmValuesUnion]
  | cons e rest ih =>
    obtain ⟨k', v'⟩ := e
    by_cases h' : k' = k
    · subst h'
      have hv' : v' ⊆ v := h v' (by simp [pmFind])
      simp only [pmSet, if_pos rfl, pmValuesUnion, List.foldr_cons]
      intro x hx
      rcases List.mem_append.1 hx with hx | hx
      · exact List.mem_append.2 (Or.inl (hv' hx))
      · exact List.mem_append.2 (Or.inr hx)
    · simp only [pmSet, if_neg h', pmValuesUnion, List.foldr_cons]
      intro x hx
      rcases List.mem_append.1 hx with hx | hx
      · exact List.mem_append.2 (Or.inl hx)
      · refine List.mem_append.2 (Or.inr ?_)
        exact ih (fun w hw => h w (by simpa [pmFind, h'] using hw)) hx

theorem self_subset_pmValuesUnion_pmSet (m : PathsMap) (k : String) (v : List String) :
    v ⊆ pmValuesUnion (pmSet m k v) := by
  induction m with
  | nil =>
    intro x hx
    simp [pmSet, pmValuesUnion, hx]
  | cons e rest ih =>
    obtain ⟨k', v'⟩ := e
    by_cases h' : k' = k
    · simp only [pmSet, if_pos h', pmValuesUnion, List.foldr_cons]
      intro x hx
      exact List.mem_append.2 (Or.inl hx)
    · simp only [pmSet, if_neg h', pmValuesUnion, List.foldr_cons]
      intro x hx
      exact List.mem_append.2 (Or.inr (ih hx))

/-! ## `mergePaths` lemmas -/

theorem mergePaths_nil (all : PathsMap) : mergePaths all [] = .ok all := rfl

theorem mergePaths_cons_none {all : PathsMap} {q : String} {ds : List String}
    (rest : PathsMap) (hq : pmFind all q = none) :
    mergePaths all ((q, ds) :: rest) = mergePaths (pmSet all q ds) rest := by
  simp [mergePaths, hq]

theorem mergePaths_cons_err {all : PathsMap} {q : String} {ds ex : List String}
    (rest : PathsMap) (hq : pmFind all q = some ex)
    (hdj : ¬ listDisjoint ex ds = true) :
    mergePaths all ((q, ds) :: rest) = .error (.cyclic q (listInter ex ds)) := by
  simp [mergePaths, hq, hdj]

theorem mergePaths_cons_ok {all : PathsMap} {q : String} {ds ex : List String}
    (rest : PathsMap) (hq : pmFind all q = some ex)
    (hdj : listDisjoint ex ds = true) :
    mergePaths all ((q, ds) :: rest) = mergePaths (pmSet all q (listUnion ex ds)) rest := by
  simp [mergePaths, hq, hdj]

theorem mergePaths_keys_mem {all found all' : PathsMap}
    (h : mergePaths all found = .ok all') :
    ∀ p, p ∈ pmKeys all' ↔ p ∈ pmKeys all ∨ p ∈ pmKeys found := by
  induction found generalizing all with
  | nil =>
    cases h
    simp
  | cons e rest ih =>
    obtain ⟨q, ds⟩ := e
    intro p
    rcases hq : pmFind all q with _ | ex
    · rw [mergePaths_cons_none rest hq] at h
      have hqk : q ∉ pmKeys all := pmFind_eq_none.1 hq
      rw [ih h p, pmKeys_pmSet_not_mem _ hqk]
      simp only [List.mem_append, List.mem_singleton, pmKeys_cons, List.mem_cons]
      tauto
    · by_cases hdj : listDisjoint ex ds = true
      · rw [mergePaths_cons_ok rest hq hdj] at h
        have hqk : q ∈ pmKeys all := mem_pmKeys_of_mem (pmFind_mem hq)
        rw [ih h p, pmKeys_pmSet_mem _ hqk]
        simp only [pmKeys_cons, List.mem_cons]
        constructor
        · tauto
        · rintro (hp | hp | hp)
          · exact Or.inl hp
          · subst hp; exact Or.inl hqk
          · exact Or.inr hp
      · rw [mergePaths_cons_err rest hq hdj] at h
        cases h

theorem mergePaths_keys_nodup {all found all' : PathsMap}
    (hnd : (pmKeys all).Nodup) (h : mergePaths all found = .ok all') :
    (pmKeys all').Nodup := by
  induction found generalizing all with
  | nil =>
    cases h
    exact hnd
  | cons e rest ih =>
    obtain ⟨q, ds⟩ := e
    rcases hq : pmFind all q with _ | ex
    · rw [mergePaths_cons_none rest hq] at h
      have hqk : q ∉ pmKeys all := pmFind_eq_none.1 hq
      refine ih ?_ h
      rw [pmKeys_pmSet_not_mem _ hqk]
      simp [List.nodup_append, hnd, hqk]
    · by_cases hdj : listDisjoint ex ds = true
      · rw [mergePaths_cons_ok rest hq hdj] at h
        have hqk : q ∈ pmKeys all := mem_pmKeys_of_mem (pmFind_mem hq)
        refine ih ?_ h
        rwa [pmKeys_pmSet_mem _ hqk]
      · rw [mergePaths_cons_err rest hq hdj] at h
        cases h

theorem mergePaths_find_mono {all found all' : PathsMap} {p : String} {v : List String}
    (h : mergePaths all found = .ok all') (hf : pmFind all p = some v) :
    ∃ v', pmFind all' p = some v' ∧ v ⊆ v' := by
  induction found generalizing all v with
  | nil =>
    cases h
    exact ⟨v, hf, fun x hx => hx⟩
  | cons e rest ih =>
    obtain ⟨q, ds⟩ := e
    rcases hq : pmFind all q with _ | ex
    · rw [mergePaths_cons_none rest hq] at h
      have hqp : q ≠ p := by
        intro hqp
        rw [hqp, hf] at hq
        cases hq
      exact ih h (by rw [pmSet_find_ne _ _ hqp, hf])
    · by_cases hdj : listDisjoint ex ds = true
      · rw [mergePaths_cons_ok rest hq hdj] at h
        by_cases hqp : q = p
        · subst hqp
          rw [hf] at hq
          cases hq
          obtain ⟨v', hv', hsub⟩ := ih h (pmSet_find_self all q (listUnion v ds))
          exact ⟨v', hv', fun x hx => hsub (mem_listUnion.2 (Or.inl hx))⟩
        · exact ih h (by rw [pmSet_find_ne _ _ hqp, hf])
      · rw [mergePaths_cons_err rest hq hdj] at h
        cases h

theorem mergePaths_found_sub {all found all' : PathsMap} {q : String} {ds : List String}
    (h : mergePaths all found = .ok all') (hm : (q, ds) ∈ found) :
    ∃ v', pmFind all' q = some v' ∧ ds ⊆ v' := by
  induction found generalizing all with
  | nil => simp at hm
  | cons e rest ih =>
    obtain ⟨q', ds'⟩ := e
    rcases List.mem_cons.1 hm with hm1 | hm1
    · cases hm1
      rcases hq : pmFind all q with _ | ex
      · rw [mergePaths_cons_none rest hq] at h
        exact mergePaths_find_mono h (pmSet_find_self all q ds)
      · by_cases hdj : listDisjoint ex ds = true
        · rw [mergePaths_cons_ok rest hq hdj] at h
          obtain ⟨v', hv', hsub⟩ := mergePaths_find_mono h (pmSet_find_self all q (listUnion ex ds))
          exact ⟨v', hv', fun x hx => hsub (mem_listUnion.2 (Or.inr hx))⟩
        · rw [mergePaths_cons_err rest hq hdj] at h
          cases h
    · rcases hq : pmFind all q' with _ | ex
      · rw [mergePaths_cons_none rest hq] at h
        exact ih h hm1
      · by_cases hdj : listDisjoint ex ds' = true
        · rw [mergePaths_cons_ok rest hq hdj] at h
          exact ih h hm1
        · rw [mergePaths_cons_err rest hq hdj] at h
          cases h

theorem mergePaths_union_sub {all found all' : PathsMap}
    (h : mergePaths all found = .ok all') :
    ∀ x ∈ pmValuesUnion all', x ∈ pmValuesUnion all ∨ x ∈ pmValuesUnion found := by
  induction found generalizing all with
  | nil =>
    cases h
    exact fun x hx => Or.inl hx
  | cons e rest ih =>
    obtain ⟨q, ds⟩ := e
    have hcons : ∀ y, y ∈ pmValuesUnion ((q, ds) :: rest) ↔
        y ∈ ds ∨ y ∈ pmValuesUnion rest := by
      intro y
      simp [pmValuesUnion]
    rcases hq : pmFind all q with _ | ex
    · rw [mergePaths_cons_none rest hq] at h
      intro x hx
      rcases ih h x hx with hx1 | hx1
      · rcases pmValuesUnion_pmSet_subset hx1 with hx2 | hx2
        · exact Or.inl hx2
        · exact Or.inr ((hcons x).2 (Or.inl hx2))
      · exact Or.inr ((hcons x).2 (Or.inr hx1))
    · by_cases hdj : listDisjoint ex ds = true
      · rw [mergePaths_cons_ok rest hq hdj] at h
        have hex : ex ⊆ pmValuesUnion all :=
          subset_pmValuesUnion_of_mem (pmFind_mem hq)
        intro x hx
        rcases ih h x hx with hx1 | hx1
        · rcases pmValuesUnion_pmSet_subset hx1 with hx2 | hx2
          · exact Or.inl hx2
          · rcases mem_listUnion.1 hx2 with hx3 | hx3
            · exact Or.inl (hex hx3)
            · exact Or.inr ((hcons x).2 (Or.inl hx3))
        · exact Or.inr ((hcons x).2 (Or.inr hx1))
      · rw [mergePaths_cons_err rest hq hdj] at h
        cases h

theorem mergePaths_union_sup_left {all found all' : PathsMap}
    (h : mergePaths all found = .ok all') :
    pmValuesUnion all ⊆ pmValuesUnion all' := by
  induction found generalizing all with
  | nil =>
    cases h
    exact fun x hx => hx
  | cons e rest ih =>
    obtain ⟨q, ds⟩ := e
    rcases hq : pmFind all q with _ | ex
    · rw [mergePaths_cons_none rest hq] at h
      refine List.Subset.trans ?_ (ih h)
      exact pmValuesUnion_pmSet_sup fun w hw => by rw [hq] at hw; cases hw
    · by_cases hdj : listDisjoint ex ds = true
      · rw [mergePaths_cons_ok rest hq hdj] at h
        refine List.Subset.trans ?_ (ih h)
        refine pmValuesUnion_pmSet_sup fun w hw => ?_
        rw [hq] at hw
        cases hw
        exact fun x hx => mem_listUnion.2 (Or.inl hx)
      · rw [mergePaths_cons_err rest hq hdj] at h
        cases h

theorem mergePaths_union_sup_found {all found all' : PathsMap}
    (h : mergePaths all found = .ok all') :
    pmValuesUnion found ⊆ pmValuesUnion all' := by
  intro x hx
  obtain ⟨e, he, hxe⟩ := mem_pmValuesUnion.1 hx
  obtain ⟨q, ds⟩ := e
  obtain ⟨v', hv', hsub⟩ := mergePaths_found_sub h he
  exact subset_pmValuesUnion_of_mem (m := all') (e := (q, v')) (pmFind_mem hv') (hsub hxe)

theorem mergePaths_error_ne_nil {all found : PathsMap} {p : String} {ov : List String}
    (h : mergePaths all found = .error (.cyclic p ov)) : ov ≠ [] := by
  induction found generalizing all with
  | nil => cases h
  | cons e rest ih =>
    obtain ⟨q, ds⟩ := e
    rcases hq : pmFind all q with _ | ex
    · rw [mergePaths_cons_none rest hq] at h
      exact ih h
    · by_cases hdj : listDisjoint ex ds = true
      · rw [mergePaths_cons_ok rest hq hdj] at h
        exact ih h
      · rw [mergePaths_cons_err rest hq hdj] at h
        cases h
        exact listInter_ne_nil (by simpa using hdj)

theorem mergePaths_error_cyclic {e : ScanError} :
    ∀ {all found : PathsMap}, mergePaths all found = .error e →
      ∃ p ov, e = .cyclic p ov := by
  intro all found
  induction found generalizing all with
  | nil => intro h; cases h
  | cons ent rest ih =>
    intro h
    obtain ⟨q, ds⟩ := ent
    rcases hq : pmFind all q with _ | ex
    · rw [mergePaths_cons_none rest hq] at h
      exact ih h
    · by_cases hdj : listDisjoint ex ds = true
      · rw [mergePaths_cons_ok rest hq hdj] at h
        exact ih h
      · rw [mergePaths_cons_err rest hq hdj] at h
        cases h
        exact ⟨q, listInter ex ds, rfl⟩

theorem mergePaths_disjoint {all found all' : PathsMap} {q : String}
    {ds v : List String} (hnd : (pmKeys found).Nodup)
    (h : mergePaths all found = .ok all') (hm : (q, ds) ∈ found)
    (hfind : pmFind all q = some v) : listDisjoint v ds = true := by
  induction found generalizing all with
  | nil => simp at hm
  | cons e rest ih =>
    obtain ⟨q', ds'⟩ := e
    rw [pmKeys_cons, List.nodup_cons] at hnd
    rcases List.mem_cons.1 hm with hm1 | hm1
    · cases hm1
      by_cases hdj : listDisjoint v ds = true
      · exact hdj
      · rw [mergePaths_cons_err rest hfind hdj] at h
        cases h
    · have hqq' : q' ≠ q := by
        intro hqq
        subst hqq
        exact hnd.1 (mem_pmKeys_of_mem hm1)
      rcases hq : pmFind all q' with _ | ex
      · rw [mergePaths_cons_none rest hq] at h
        exact ih hnd.2 h hm1 (by rw [pmSet_find_ne _ _ hqq', hfind])
      · by_cases hdj : listDisjoint ex ds' = true
        · rw [mergePaths_cons_ok rest hq hdj] at h
          exact ih hnd.2 h hm1 (by rw [pmSet_find_ne _ _ hqq', hfind])
        · rw [mergePaths_cons_err rest hq hdj] at h
          cases h

theorem mergePaths_find_not_found {all found all' : PathsMap} {q : String}
    (h : mergePaths all found = .ok all') (hq : q ∉ pmKeys found) :
    pmFind all' q = pmFind all q := by
  induction found generalizing all with
  | nil => cases h; rfl
  | cons e rest ih =>
    obtain ⟨q', ds'⟩ := e
    rw [pmKeys_cons, List.mem_cons] at hq
    push_neg at hq
    have hq' : q' ≠ q := Ne.symm hq.1
    rcases hfq : pmFind all q' with _ | ex
    · rw [mergePaths_cons_none rest hfq] at h
      rw [ih h hq.2, pmSet_find_ne _ _ hq']
    · by_cases hdj : listDisjoint ex ds' = true
      · rw [mergePaths_cons_ok rest hfq hdj] at h
        rw [ih h hq.2, pmSet_find_ne _ _ hq']
      · rw [mergePaths_cons_err rest hfq hdj] at h
        cases h

theorem mergePaths_find_found_old {all found all' : PathsMap} {q : String}
    {ds ex : List String} (hnd : (pmKeys found).Nodup)
    (h : mergePaths all found = .ok all') (hm : (q, ds) ∈ found)
    (hfind : pmFind all q = some ex) : pmFind all' q = some (listUnion ex ds) := by
  induction found generalizing all with
  | nil => simp at hm
  | cons e rest ih =>
    obtain ⟨q', ds'⟩ := e
    rw [pmKeys_cons, List.nodup_cons] at hnd
    rcases List.mem_cons.1 hm with hm1 | hm1
    · cases hm1
      by_cases hdj : listDisjoint ex ds = true
      · rw [mergePaths_cons_ok rest hfind hdj] at h
        rw [mergePaths_find_not_found h hnd.1, pmSet_find_self]
      · rw [mergePaths_cons_err rest hfind hdj] at h
        cases h
    · have hqq' : q' ≠ q := by
        intro hqq
        subst hqq
        exact hnd.1 (mem_pmKeys_of_mem hm1)
      rcases hfq : pmFind all q' with _ | ex'
      · rw [mergePaths_cons_none rest hfq] at h
        exact ih hnd.2 h hm1 (by rw [pmSet_find_ne _ _ hqq', hfind])
      · by_cases hdj : listDisjoint ex' ds' = true
        · rw [mergePaths_cons_ok rest hfq hdj] at h
          exact ih hnd.2 h hm1 (by rw [pmSet_find_ne _ _ hqq', hfind])
        · rw [mergePaths_cons_err rest hfq hdj] at h
          cases h

/-! ## `layerMap` structure -/

theorem layerMap_mem {fs : FS} {l : List String} {e : String × List String}
    (h : e ∈ layerMap fs l) :
    fs.expandable e.1 = true ∧ e.2 = fs.childrenL e.1 ∧ e.1 ∈ l := by
  obtain ⟨p, hp, hpe⟩ := List.mem_filterMap.1 h
  by_cases hex : fs.expandable p
  · rw [if_pos hex] at hpe
    cases hpe
    exact ⟨hex, rfl, hp⟩
  · rw [if_neg hex] at hpe
    cases hpe

theorem layerMap_keys (fs : FS) (l : List String) :
    pmKeys (layerMap fs l) = l.filter (fun p => fs.expandable p) := by
  induction l with
  | nil => rfl
  | cons p rest ih =>
    by_cases hex : fs.expandable p
    · simp [layerMap, pmKeys, hex] at *
      exact ih
    · simp [layerMap, pmKeys, hex] at *
      exact ih

theorem layerMap_mem_keys {fs : FS} {l : List String} {p : String}
    (hp : p ∈ l) (hex : fs.expandable p = true) :
    (p, fs.childrenL p) ∈ layerMap fs l :=
  List.mem_filterMap.2 ⟨p, hp, by rw [if_pos hex]⟩

theorem findImportsOnce_ok {fs : FS} {l : List String} {m : PathsMap}
    (h : findImportsOnce fs l = .ok m) : m = layerMap fs l := by
  rw [findImportsOnce] at h
  rcases hf : l.find? (fun p => fs.expandable p && fs.resolveFails p) with _ | p <;>
    rw [hf] at h
  · exact (Except.ok.inj h).symm
  · exact absurd h (by simp)

theorem findImportsOnce_error {fs : FS} {l : List String} {e : ScanError}
    (h : findImportsOnce fs l = .error e) : ∃ q, e = .unresolvable q := by
  rw [findImportsOnce] at h
  rcases hf : l.find? (fun p => fs.expandable p && fs.resolveFails p) with _ | p <;>
    rw [hf] at h
  · exact absurd h (by simp)
  · exact ⟨p, (Except.error.inj h).symm⟩

theorem findImportsOnce_noFail {fs : FS}
    (hres : ∀ p, fs.expandable p = true → fs.resolveFails p = false)
    (l : List String) : findImportsOnce fs l = .ok (layerMap fs l) := by
  rw [findImportsOnce]
  have hf : l.find? (fun p => fs.expandable p && fs.resolveFails p) = none := by
    rw [List.find?_eq_none]
    intro p _
    by_cases hex : fs.expandable p = true
    · simp [hex, hres p hex]
    · have hex' : fs.expandable p = false := by
        revert hex
        cases fs.expandable p <;> simp
      simp [hex']
  rw [hf]

theorem frontierList_mem {found : PathsMap} {x : String} :
    x ∈ frontierList found ↔ x ∈ pmValuesUnion found := by
  simp [frontierList, List.mem_dedup]

theorem frontierList_nodup (found : PathsMap) : (frontierList found).Nodup :=
  List.nodup_dedup _

/-! ## The loop invariant is preserved -/

theorem goodAll_nil (fs : FS) (E : List String) : GoodAll fs E [] :=
  ⟨List.nodup_nil, by simp⟩

theorem inv_init (fs : FS) (E : List String) : Inv fs E [] [("", E)] :=
  ⟨goodAll_nil fs E, Or.inl ⟨rfl, rfl⟩⟩

theorem mergePaths_goodAll {fs : FS} {E : List String} {all found all' : PathsMap}
    (hall : GoodAll fs E all) (hroot : "" ∈ pmKeys all)
    (hfr : ∀ e ∈ found, fs.expandable e.1 = true ∧ e.2 = fs.childrenL e.1)
    (h : mergePaths all found = .ok all') : GoodAll fs E all' := by
  induction found generalizing all with
  | nil => cases h; exact hall
  | cons e rest ih =>
    obtain ⟨q, ds⟩ := e
    obtain ⟨hqex, hds⟩ := hfr (q, ds) (by simp)
    simp only at hqex hds
    subst hds
    rcases hfq : pmFind all q with _ | ex
    · rw [mergePaths_cons_none rest hfq] at h
      have hqk : q ∉ pmKeys all := pmFind_eq_none.1 hfq
      have hq0 : q ≠ "" := fun hq0 => hqk (hq0 ▸ hroot)
      refine ih ?_ ?_ (fun e he => hfr e (List.mem_cons_of_mem _ he)) h
      · constructor
        · rw [pmKeys_pmSet_not_mem _ hqk]
          simp [List.nodup_append, hall.1, hqk]
        · intro e he
          rcases mem_pmSet he with he1 | he1
          · subst he1
            exact Or.inr ⟨hqex, rfl⟩
          · exact hall.2 e he1
      · rw [pmKeys_pmSet_not_mem _ hqk]
        simp [hroot]
    · by_cases hdj : listDisjoint ex (fs.childrenL q) = true
      · rw [mergePaths_cons_ok rest hfq hdj] at h
        have hqk : q ∈ pmKeys all := mem_pmKeys_of_mem (pmFind_mem hfq)
        refine ih ?_ ?_ (fun e he => hfr e (List.mem_cons_of_mem _ he)) h
        · constructor
          · rw [pmKeys_pmSet_mem _ hqk]
            exact hall.1
          · intro e he
            rcases mem_pmSet he with he1 | he1
            · subst he1
              rcases hall.2 (q, ex) (pmFind_mem hfq) with ⟨hq0, hex⟩ | ⟨_, hex⟩
              · simp only at hq0 hex
                subst hq0
                refine Or.inl ⟨rfl, ?_⟩
                rcases hex with hex | hex <;> subst hex
                · exact Or.inr rfl
                · refine Or.inr ?_
                  simp only
                  exact listUnion_eq_of_subset fun x hx => mem_listUnion.2 (Or.inr hx)
              · simp only at hex
                subst hex
                exact Or.inr ⟨hqex, by simp only [listUnion_self]⟩
            · exact hall.2 e he1
        · rw [pmKeys_pmSet_mem _ hqk]
          exact hroot
      · rw [mergePaths_cons_err rest hfq hdj] at h
        cases h

theorem inv_step {fs : FS} {E : List String} {all found all' : PathsMap}
    (hinv : Inv fs E all found) (h : mergePaths all found = .ok all') :
    Inv fs E all' (layerMap fs (frontierList found)) := by
  obtain ⟨hall, hcase⟩ := hinv
  have hfr' : ∀ e ∈ layerMap fs (frontierList found),
      fs.expandable e.1 = true ∧ e.2 = fs.childrenL e.1 := by
    intro e he
    obtain ⟨h1, h2, _⟩ := layerMap_mem he
    exact ⟨h1, h2⟩
  have hnd' : (pmKeys (layerMap fs (frontierList found))).Nodup := by
    rw [layerMap_keys]
    exact (frontierList_nodup found).filter _
  rcases hcase with ⟨hnil, hfnd⟩ | ⟨hroot, _, hfr⟩
  · subst hnil
    subst hfnd
    have hstep : mergePaths ([] : PathsMap) [("", E)] = .ok [("", E)] := rfl
    rw [hstep] at h
    cases h
    refine ⟨⟨by simp, ?_⟩, Or.inr ⟨by simp, hnd', hfr'⟩⟩
    intro e he
    rcases List.mem_singleton.1 he with he1
    subst he1
    exact Or.inl ⟨rfl, Or.inl rfl⟩
  · refine ⟨mergePaths_goodAll hall hroot hfr h, Or.inr ⟨?_, hnd', hfr'⟩⟩
    exact (mergePaths_keys_mem h "").2 (Or.inl hroot)

/-! ## Termination of the scan loop -/

theorem existsOn_mem {fs : FS} {p : String} (h : fs.existsOn p = true) :
    p ∈ fs.files := by
  rw [FS.existsOn] at h
  exact listContains_iff.1 h

theorem expandable_existsOn {fs : FS} {p : String} (h : fs.expandable p = true) :
    fs.existsOn p = true := by
  simp only [FS.expandable, Bool.and_eq_true] at h
  exact h.1.2

theorem expandable_mem_kUniv {fs : FS} {p : String} (h : fs.expandable p = true) :
    p ∈ kUniv fs := by
  refine Finset.mem_insert_of_mem ?_
  rw [List.mem_toFinset, List.mem_filter]
  exact ⟨existsOn_mem (expandable_existsOn h), h⟩

theorem find_some_of_mem_keys {m : PathsMap} {q : String} (h : q ∈ pmKeys m) :
    ∃ ex, pmFind m q = some ex := by
  rcases hf : pmFind m q with _ | ex
  · exact absurd (pmFind_eq_none.1 hf) (by simpa using h)
  · exact ⟨ex, rfl⟩

theorem mu_decrease {fs : FS} {E : List String} {all found all' : PathsMap}
    (hinv : Inv fs E all found) (hne : found.isEmpty = false)
    (h : mergePaths all found = .ok all') :
    mu fs E all' (layerMap fs (frontierList found)) < mu fs E all found := by
  obtain ⟨hall, hcase⟩ := hinv
  have hb : (if found.isEmpty then 0 else 1) = 1 := by rw [hne]; rfl
  have ht' : tTag E all' ≤ 1 := by unfold tTag; split <;> omega
  have hb' : (if (layerMap fs (frontierList found)).isEmpty then 0 else 1) ≤ 1 := by
    split <;> omega
  rcases hcase with ⟨hnil, hfnd⟩ | ⟨hroot, hnd, hfr⟩
  · -- first iteration: the sentinel key is inserted
    subst hnil
    subst hfnd
    have hstep : mergePaths ([] : PathsMap) [("", E)] = .ok [("", E)] := rfl
    rw [hstep] at h
    cases h
    have hk0 : keysFinset ([] : PathsMap) = ∅ := rfl
    have hk1 : keysFinset [("", E)] = {""} := rfl
    have hmem : ("" : String) ∈ kUniv fs := Finset.mem_insert_self _ _
    have hcard : (kUniv fs \ {""}).card = (kUniv fs).card - 1 := by
      rw [Finset.card_sdiff (Finset.singleton_subset_iff.2 hmem)]
      simp
    have hpos : 0 < (kUniv fs).card := Finset.card_pos.2 ⟨"", hmem⟩
    have ht : tTag E ([] : PathsMap) = 0 := by
      unfold tTag
      simp [pmFind]
    unfold mu
    rw [hk0, hk1, hcard, ht, hb]
    have ht1 : tTag E [("", E)] ≤ 1 := by unfold tTag; split <;> omega
    simp only [Finset.sdiff_empty]
    omega
  · -- later iterations
    by_cases hnew : ∃ e ∈ found, e.1 ∉ pmKeys all
    · -- at least one fresh key is inserted: the key deficit shrinks
      obtain ⟨e0, he0, hke0⟩ := hnew
      have hsub : keysFinset all ⊆ keysFinset all' := by
        intro x hx
        rw [keysFinset, List.mem_toFinset] at hx ⊢
        exact (mergePaths_keys_mem h x).2 (Or.inl hx)
      have he0' : e0.1 ∈ keysFinset all' := by
        rw [keysFinset, List.mem_toFinset]
        exact (mergePaths_keys_mem h e0.1).2 (Or.inr (mem_pmKeys_of_mem he0))
      have he0k : e0.1 ∈ kUniv fs := expandable_mem_kUniv (hfr e0 he0).1
      have hss : kUniv fs \ keysFinset all' ⊂ kUniv fs \ keysFinset all := by
        constructor
        · intro x hx
          rw [Finset.mem_sdiff] at hx ⊢
          exact ⟨hx.1, fun hc => hx.2 (hsub hc)⟩
        · intro hcon
          have : e0.1 ∈ kUniv fs \ keysFinset all' := by
            refine hcon ?_
            rw [Finset.mem_sdiff]
            exact ⟨he0k, by rwa [keysFinset, List.mem_toFinset]⟩
          rw [Finset.mem_sdiff] at this
          exact this.2 he0'
      have hcard := Finset.card_lt_card hss
      unfold mu
      rw [hb]
      omega
    · -- no fresh key: either the sentinel value grows once, or the
      -- frontier dies out
      push_neg at hnew
      have hkeq : keysFinset all' = keysFinset all := by
        apply Finset.ext
        intro x
        rw [keysFinset, keysFinset, List.mem_toFinset, List.mem_toFinset,
          mergePaths_keys_mem h x]
        constructor
        · rintro (hx | hx)
          · exact hx
          · obtain ⟨e, he, hex⟩ := List.mem_map.1 hx
            exact hex ▸ hnew e he
        · exact Or.inl
      by_cases hc : ("" ∈ pmKeys found) ∧ fs.childrenL "" ≠ []
      · -- the sentinel is re-merged with fresh, disjoint children
        obtain ⟨hc0, hcne⟩ := hc
        obtain ⟨e0, he0, he01⟩ := List.mem_map.1 hc0
        have hds0 : e0.2 = fs.childrenL "" := by
          have := (hfr e0 he0).2
          rw [he01] at this
          exact this
        have hm0 : (("" : String), fs.childrenL "") ∈ found := by
          have : e0 = ("", fs.childrenL "") := by
            cases e0
            simp only at he01 hds0
            rw [he01, hds0]
          rwa [this] at he0
        obtain ⟨ex0, hfind0⟩ := find_some_of_mem_keys hroot
        have hdisj : listDisjoint ex0 (fs.childrenL "") = true :=
          mergePaths_disjoint hnd h hm0 hfind0
        have hex0E : ex0 = E := by
          rcases hall.2 ("", ex0) (pmFind_mem hfind0) with ⟨_, hx⟩ | ⟨_, hx⟩
          · simp only at hx
            rcases hx with hx | hx
            · exact hx
            · exfalso
              obtain ⟨y, hy⟩ := List.exists_mem_of_ne_nil _ hcne
              have hyex : y ∈ ex0 := hx ▸ mem_listUnion.2 (Or.inr hy)
              exact (listDisjoint_iff.1 hdisj) y hyex hy
          · exfalso
            simp only at hx
            obtain ⟨y, hy⟩ := List.exists_mem_of_ne_nil _ hcne
            exact (listDisjoint_iff.1 hdisj) y (hx ▸ hy) hy
      -- the sentinel value grows from `E` to `E ∪ children`
        rw [hex0E] at hfind0 hdisj
        have hfind' : pmFind all' "" = some (listUnion E (fs.childrenL "")) :=
          mergePaths_find_found_old hnd h hm0 hfind0
        have ht : tTag E all = 1 := by
          unfold tTag
          rw [hfind0]
          simp
        have ht'0 : tTag E all' = 0 := by
          unfold tTag
          rw [hfind']
          have := listUnion_ne_left hdisj hcne
          simp [this]
        unfold mu
        rw [hkeq, ht, ht'0, hb]
        omega
      · -- every re-merged value must be empty, so the next frontier is empty
        have hval : ∀ e ∈ found, e.2 = ([] : List String) := by
          intro e he
          obtain ⟨hex, hch⟩ := hfr e he
          obtain ⟨ex, hfind⟩ := find_some_of_mem_keys (hnew e he)
          have hdisj : listDisjoint ex e.2 = true := by
            have hm : (e.1, e.2) ∈ found := by cases e; exact he
            exact mergePaths_disjoint hnd h hm hfind
          by_cases he1 : e.1 = ""
          · have : fs.childrenL "" = [] := by
              by_contra hcc
              exact hc ⟨he1 ▸ mem_pmKeys_of_mem he, hcc⟩
            rw [hch, he1, this]
          · rcases hall.2 (e.1, ex) (pmFind_mem hfind) with ⟨hx, _⟩ | ⟨_, hx⟩
            · exact absurd hx he1
            · simp only at hx
              rw [hch] at hdisj ⊢
              rw [hx] at hdisj
              rw [List.eq_nil_iff_forall_not_mem]
              intro y hy
              exact (listDisjoint_iff.1 hdisj) y hy hy
        have huni : pmValuesUnion found = [] := by
          rw [List.eq_nil_iff_forall_not_mem]
          intro x hx
          obtain ⟨e, he, hxe⟩ := mem_pmValuesUnion.1 hx
          rw [hval e he] at hxe
          simp at hxe
        have hfio : layerMap fs (frontierList found) = [] := by
          rw [frontierList, huni]
          rfl
        have hteq : tTag E all' = tTag E all := by
          by_cases h0 : "" ∈ pmKeys found
          · obtain ⟨e0, he0, he01⟩ := List.mem_map.1 h0
            have hm0 : (("" : String), e0.2) ∈ found := by
              cases e0
              simp only at he01
              rwa [he01] at he0
            obtain ⟨ex0, hfind0⟩ := find_some_of_mem_keys hroot
            have := mergePaths_find_found_old hnd h hm0 hfind0
            rw [hval _ hm0, listUnion_nil] at this
            unfold tTag
            rw [this, hfind0]
          · unfold tTag
            rw [mergePaths_find_not_found h h0]
        unfold mu
        rw [hkeq, hteq, hb, hfio]
        simp only [List.isEmpty_nil, if_true]
        omega

theorem scanLoop_isSome {fs : FS} {E : List String} :
    ∀ (fuel : Nat) {all found : PathsMap}, Inv fs E all found →
      mu fs E all found < fuel → (scanLoop fs fuel all found).isSome := by
  intro fuel
  induction fuel with
  | zero => intro all found _ hlt; omega
  | succ n ih =>
    intro all found hinv hlt
    rw [scanLoop]
    by_cases hemp : found.isEmpty
    · rw [if_pos hemp]
      rfl
    · rw [if_neg hemp]
      rcases hm : mergePaths all found with e | all'
      · rfl
      · rcases hfio : findImportsOnce fs (frontierList found) with e2 | next
        · rfl
        · obtain rfl := findImportsOnce_ok hfio
          have hdec := mu_decrease hinv (by simpa using hemp) hm
          exact ih (inv_step hinv hm) (by omega)

/-- The fuel `scanFuel` always suffices: `findImports` never runs out. -/
theorem findImports_isSome (fs : FS) (paths : List String) :
    (findImports fs paths).isSome := by
  refine scanLoop_isSome (scanFuel fs) (inv_init fs _) ?_
  have hcard : (kUniv fs).card ≤ fs.files.length + 1 := by
    refine (Finset.card_insert_le _ _).trans ?_
    have h1 : (fs.files.filter (fun p => fs.expandable p)).toFinset.card ≤
        (fs.files.filter (fun p => fs.expandable p)).length :=
      (fs.files.filter (fun p => fs.expandable p)).toFinset_card_le
    have h2 : (fs.files.filter (fun p => fs.expandable p)).length ≤ fs.files.length :=
      List.length_filter_le _ _
    omega
  have ht : tTag (paths.dedup) ([] : PathsMap) = 0 := by
    unfold tTag
    simp [pmFind]
  unfold mu scanFuel
  rw [ht]
  have hk : keysFinset ([] : PathsMap) = ∅ := rfl
  rw [hk, Finset.sdiff_empty]
  have : ([(("" : String), paths.dedup)] : PathsMap).isEmpty = false := rfl
  rw [this]
  simp only [Bool.false_eq_true, if_false]
  omega

/-! ## Characterisation of a successful scan -/

theorem mem_childrenL {fs : FS} {u v : String} (h : v ∈ fs.childrenL u) :
    fs.excluded v = false ∧ fs.existsOn v = true := by
  rw [FS.childrenL, List.mem_dedup, List.mem_filter] at h
  have := h.2
  simp only [Bool.and_eq_true, Bool.not_eq_true'] at this
  exact this

theorem scan_ok_result_sup {fs : FS} :
    ∀ (fuel : Nat) {all found : PathsMap} {S : List String},
      scanLoop fs fuel all found = some (.ok S) →
      ∀ x, x ∈ pmValuesUnion all ∨ x ∈ pmValuesUnion found → x ∈ S := by
  intro fuel
  induction fuel with
  | zero => intro all found S h; cases h
  | succ n ih =>
    intro all found S h
    rw [scanLoop] at h
    by_cases hemp : found.isEmpty
    · rw [if_pos hemp] at h
      have hfnd : found = [] := List.isEmpty_iff.1 hemp
      subst hfnd
      cases h
      intro x hx
      rcases hx with hx | hx
      · exact List.mem_dedup.2 hx
      · simp [pmValuesUnion] at hx
    · rw [if_neg hemp] at h
      rcases hm : mergePaths all found with e | all'
      · rw [hm] at h
        cases h
      · rw [hm] at h
        rcases hfio : findImportsOnce fs (frontierList found) with e2 | next
        · rw [hfio] at h
          simp at h
        · rw [hfio] at h
          intro x hx
          rcases hx with hx | hx
          · exact ih h x (Or.inl (mergePaths_union_sup_left hm hx))
          · exact ih h x (Or.inl (mergePaths_union_sup_found hm hx))

theorem inv3_init (fs : FS) (E : List String) : Inv3 fs [] [("", E)] := by
  intro u _ hu
  simp [pmValuesUnion] at hu

theorem inv3_step {fs : FS} {E : List String} {all found all' : PathsMap}
    (hinv : Inv fs E all found) (hinv3 : Inv3 fs all found)
    (h : mergePaths all found = .ok all') :
    Inv3 fs all' (layerMap fs (frontierList found)) := by
  intro u hex hu
  rcases mergePaths_union_sub h u hu with hu1 | hu1
  · rcases hinv3 u hex hu1 with ⟨v, hv, hsub⟩ | hkey
    · obtain ⟨v', hv', hsub'⟩ := mergePaths_find_mono h hv
      exact Or.inl ⟨v', hv', hsub.trans hsub'⟩
    · obtain ⟨e, he, he1⟩ := List.mem_map.1 hkey
      have hds : e.2 = fs.childrenL u ∨ (all = [] ∧ found = [("", E)]) := by
        rcases hinv.2 with ⟨h1, h2⟩ | ⟨_, _, hfr⟩
        · exact Or.inr ⟨h1, h2⟩
        · exact Or.inl (he1 ▸ (hfr e he).2)
      rcases hds with hds | ⟨hnil, _⟩
      · have hm : (u, e.2) ∈ found := by cases e; simp only at he1; rwa [he1] at he
        obtain ⟨v', hv', hsub'⟩ := mergePaths_found_sub h hm
        exact Or.inl ⟨v', hv', hds ▸ hsub'⟩
      · subst hnil
        simp [pmValuesUnion] at hu1
  · refine Or.inr ?_
    have hfr : u ∈ frontierList found := frontierList_mem.2 hu1
    exact mem_pmKeys_of_mem (e := (u, fs.childrenL u))
      (layerMap_mem_keys hfr hex)

theorem scan_ok_closed {fs : FS} {E : List String} :
    ∀ (fuel : Nat) {all found : PathsMap} {S : List String},
      Inv fs E all found → Inv3 fs all found →
      scanLoop fs fuel all found = some (.ok S) →
      ∀ u, fs.expandable u = true → u ∈ S → fs.childrenL u ⊆ S := by
  intro fuel
  induction fuel with
  | zero => intro all found S _ _ h; cases h
  | succ n ih =>
    intro all found S hinv hinv3 h
    rw [scanLoop] at h
    by_cases hemp : found.isEmpty
    · rw [if_pos hemp] at h
      have hfnd : found = [] := List.isEmpty_iff.1 hemp
      subst hfnd
      cases h
      intro u hex hu
      rcases hinv3 u hex (List.mem_dedup.1 hu) with ⟨v, hv, hsub⟩ | hkey
      · intro y hy
        exact List.mem_dedup.2 ((hsub.trans (subset_pmValuesUnion_of_mem (pmFind_mem hv))) hy)
      · simp at hkey
    · rw [if_neg hemp] at h
      rcases hm : mergePaths all found with e | all'
      · rw [hm] at h
        cases h
      · rw [hm] at h
        rcases hfio : findImportsOnce fs (frontierList found) with e2 | next
        · rw [hfio] at h
          simp at h
        · rw [hfio] at h
          obtain rfl := findImportsOnce_ok hfio
          exact ih (inv_step hinv hm) (inv3_step hinv hinv3 hm) h

theorem scan_ok_sound {fs : FS} {E : List String} :
    ∀ (fuel : Nat) {all found : PathsMap} {S : List String},
      (∀ x, x ∈ pmValuesUnion all ∨ x ∈ pmValuesUnion found → Reaches fs E x) →
      scanLoop fs fuel all found = some (.ok S) →
      ∀ v ∈ S, Reaches fs E v := by
  intro fuel
  induction fuel with
  | zero => intro all found S _ h; cases h
  | succ n ih =>
    intro all found S hsub h
    rw [scanLoop] at h
    by_cases hemp : found.isEmpty
    · rw [if_pos hemp] at h
      cases h
      intro v hv
      exact hsub v (Or.inl (List.mem_dedup.1 hv))
    · rw [if_neg hemp] at h
      rcases hm : mergePaths all found with e | all'
      · rw [hm] at h
        cases h
      · rw [hm] at h
        rcases hfio : findImportsOnce fs (frontierList found) with e2 | next
        · rw [hfio] at h
          simp at h
        · rw [hfio] at h
          obtain rfl := findImportsOnce_ok hfio
          refine ih ?_ h
          intro x hx
          rcases hx with hx | hx
          · exact hsub x (mergePaths_union_sub hm x hx)
          · obtain ⟨e, he, hxe⟩ := mem_pmValuesUnion.1 hx
            obtain ⟨hex, hch, hmem⟩ := layerMap_mem he
            have hreach : Reaches fs E e.1 :=
              hsub e.1 (Or.inr (frontierList_mem.1 hmem))
            obtain ⟨x0, hx0, hpath⟩ := hreach
            exact ⟨x0, hx0, hpath.tail ⟨hex, hch ▸ hxe⟩⟩

theorem scan_ok_no_cycle {fs : FS} {E : List String} :
    ∀ (fuel : Nat) {all found : PathsMap} {S : List String},
      Inv fs E all found → scanLoop fs fuel all found = some (.ok S) →
      ∀ x u, x ∈ pmValuesUnion found → Relation.ReflTransGen (edge fs) x u →
        CycAt fs u → False := by
  intro fuel
  induction fuel with
  | zero => intro all found S _ h; cases h
  | succ n ih =>
    intro all found S hinv h x u hx hpath hcyc
    rw [scanLoop] at h
    by_cases hemp : found.isEmpty
    · have hfnd : found = [] := List.isEmpty_iff.1 hemp
      subst hfnd
      simp [pmValuesUnion] at hx
    · rw [if_neg hemp] at h
      rcases hm : mergePaths all found with e | all'
      · rw [hm] at h
        cases h
      · rw [hm] at h
        rcases hfio : findImportsOnce fs (frontierList found) with e2 | next
        · rw [hfio] at h
          simp at h
        · rw [hfio] at h
          obtain rfl := findImportsOnce_ok hfio
          have hxfr : ∀ y z, y ∈ pmValuesUnion found → edge fs y z →
              z ∈ pmValuesUnion (layerMap fs (frontierList found)) := by
            intro y z hy hedge
            obtain ⟨hyex, hz⟩ := hedge
            have hyfr : y ∈ frontierList found := frontierList_mem.2 hy
            exact mem_pmValuesUnion.2
              ⟨(y, fs.childrenL y), layerMap_mem_keys hyfr hyex, hz⟩
          rcases (Relation.ReflTransGen.cases_head hpath) with heq | ⟨y, hxy, hyu⟩
          · obtain ⟨w, hew, hwu⟩ := hcyc
            exact ih (inv_step hinv hm) h w u (hxfr u w (heq ▸ hx) hew) hwu ⟨w, hew, hwu⟩
          · exact ih (inv_step hinv hm) h y u (hxfr x y hx hxy) hyu hcyc

theorem scanLoop_error_ne_nil {fs : FS} :
    ∀ (fuel : Nat) {all found : PathsMap} {p : String} {ov : List String},
      scanLoop fs fuel all found = some (.error (.cyclic p ov)) → ov ≠ [] := by
  intro fuel
  induction fuel with
  | zero => intro all found p ov h; cases h
  | succ n ih =>
    intro all found p ov h
    rw [scanLoop] at h
    by_cases hemp : found.isEmpty
    · rw [if_pos hemp] at h
      cases h
    · rw [if_neg hemp] at h
      rcases hm : mergePaths all found with e | all'
      · rw [hm] at h
        cases h
        exact mergePaths_error_ne_nil hm
      · rw [hm] at h
        rcases hfio : findImportsOnce fs (frontierList found) with e2 | next
        · rw [hfio] at h
          obtain ⟨q, rfl⟩ := findImportsOnce_error hfio
          simp at h
        · rw [hfio] at h
          exact ih h

theorem scanLoop_no_unresolvable {fs : FS}
    (hres : ∀ p, fs.expandable p = true → fs.resolveFails p = false) :
    ∀ (fuel : Nat) {all found : PathsMap} {q : String},
      scanLoop fs fuel all found ≠ some (.error (.unresolvable q)) := by
  intro fuel
  induction fuel with
  | zero => intro all found q h; cases h
  | succ n ih =>
    intro all found q h
    rw [scanLoop] at h
    by_cases hemp : found.isEmpty
    · rw [if_pos hemp] at h
      simp at h
    · rw [if_neg hemp] at h
      rcases hm : mergePaths all found with e | all'
      · rw [hm] at h
        obtain ⟨p2, ov2, rfl⟩ := mergePaths_error_cyclic hm
        simp at h
      · rw [hm] at h
        rw [findImportsOnce_noFail hres (frontierList found)] at h
        exact ih h

/-- The union of values of the initial sentinel frontier is the entry set. -/
theorem pmValuesUnion_init (E : List String) :
    pmValuesUnion [(("" : String), E)] = E := by
  simp [pmValuesUnion]

/-! ## Top-level facts about `findImports` -/

/-- On success, the returned set is exactly the set of reachable files. -/
theorem findImports_ok_mem {fs : FS} {paths S : List String}
    (h : findImports fs paths = some (.ok S)) :
    ∀ v, v ∈ S ↔ Reaches fs paths v := by
  rw [findImports] at h
  intro v
  constructor
  · refine scan_ok_sound (E := paths) (scanFuel fs) ?_ h v
    intro x hx
    rcases hx with hx | hx
    · simp [pmValuesUnion] at hx
    · rw [pmValuesUnion_init] at hx
      exact ⟨x, List.mem_dedup.1 hx, Relation.ReflTransGen.refl⟩
  · rintro ⟨x, hx, hpath⟩
    have hbase : x ∈ S := by
      refine scan_ok_result_sup (scanFuel fs) h x (Or.inr ?_)
      rw [pmValuesUnion_init]
      exact List.mem_dedup.2 hx
    clear hx
    induction hpath with
    | refl => exact hbase
    | tail h1 h2 ih =>
      obtain ⟨hex, hch⟩ := h2
      exact scan_ok_closed (scanFuel fs) (inv_init fs paths.dedup)
        (inv3_init fs paths.dedup) h _ hex ih hch

/-- When module resolution does not throw for any scanned file, a
reachable cycle forces the scan into the cyclic-import error. -/
theorem findImports_cycle_error {fs : FS} {paths : List String}
    (hres : ∀ p, fs.expandable p = true → fs.resolveFails p = false)
    (h : ReachableCycle fs paths) :
    ∃ p ov, findImports fs paths = some (.error (.cyclic p ov)) ∧ ov ≠ [] := by
  obtain ⟨u, ⟨x, hx, hpath⟩, hcyc⟩ := h
  rcases hr : findImports fs paths with _ | r
  · exfalso
    have := findImports_isSome fs paths
    rw [hr] at this
    simp at this
  · rcases r with e | S
    · rcases e with ⟨p, ov⟩ | q
      · refine ⟨p, ov, rfl, ?_⟩
        rw [findImports] at hr
        exact scanLoop_error_ne_nil _ hr
      · exfalso
        rw [findImports] at hr
        exact scanLoop_no_unresolvable hres _ hr
    · exfalso
      rw [findImports] at hr
      refine scan_ok_no_cycle (E := paths.dedup) (scanFuel fs)
        (inv_init fs paths.dedup) hr x u ?_ hpath hcyc
      rw [pmValuesUnion_init]
      exact List.mem_dedup.2 hx

/-- Monotone ranks forbid cycles. -/
theorem rank_acyclic {fs : FS} {rank : String → Nat}
    (hmono : ∀ u v, edge fs u v → rank u < rank v) : ∀ u, ¬ CycAt fs u := by
  intro u hcyc
  obtain ⟨v, hedge, hpath⟩ := hcyc
  have hle : ∀ {a b : String}, Relation.ReflTransGen (edge fs) a b → rank a ≤ rank b := by
    intro a b hp
    induction hp with
    | refl => exact le_refl _
    | tail h1 h2 ih => exact ih.trans (le_of_lt (hmono _ _ h2))
  have h1 := hmono u v hedge
  have h2 := hle hpath
  omega

theorem edge_iff_edgeB {fs : FS} {u v : String} :
    edge fs u v ↔ edgeB fs u v = true := by
  rw [edge, edgeB, Bool.and_eq_true]
  simp [listContains_iff]

/-- The edges of `fsD` strictly increase `rankD`: `fsD` is acyclic. -/
theorem fsD_rank_mono : ∀ u v, edge fsD u v → rankD u < rankD v := by
  intro u v hedge
  have hu : u ∈ fsD.files := existsOn_mem (expandable_existsOn hedge.1)
  have hv : v ∈ fsD.files := existsOn_mem (mem_childrenL hedge.2).2
  have hb : edgeB fsD u v = true := edge_iff_edgeB.1 hedge
  have hall : (fsD.files.all fun a => fsD.files.all fun b =>
      !(edgeB fsD a b) || decide (rankD a < rankD b)) = true := by decide
  have h1 := (List.all_eq_true.1 hall) u hu
  have h2 := (List.all_eq_true.1 h1) v hv
  rw [hb] at h2
  simpa using h2

/-! ## Claim C1 -/

/-- C1 (corrected): the claim "for every acyclic dependency graph the scan
returns exactly the reachable set" fails on the code — acyclicity does not
guarantee success.  What holds is: whenever `findImports` succeeds (on any
graph), it returns exactly the set of files reachable from the entry paths
through effective import edges, the entry files included; every returned
non-entry file survived the exclusion filter and exists on disk. -/
theorem C1_scan_success_returns_reachable_set {fs : FS} {paths S : List String}
    (h : findImports fs paths = some (.ok S)) :
    (∀ v, v ∈ S ↔ Reaches fs paths v) ∧
    (∀ p ∈ paths, p ∈ S) ∧
    (∀ v ∈ S, v ∈ paths ∨ (fs.excluded v = false ∧ fs.existsOn v = true)) := by
  refine ⟨findImports_ok_mem h, ?_, ?_⟩
  · intro p hp
    exact (findImports_ok_mem h p).2 ⟨p, hp, Relation.ReflTransGen.refl⟩
  · intro v hv
    obtain ⟨x, hx, hpath⟩ := (findImports_ok_mem h v).1 hv
    rcases Relation.ReflTransGen.cases_tail hpath with heq | ⟨c, _, hedge⟩
    · exact Or.inl (heq ▸ hx)
    · exact Or.inr (mem_childrenL hedge.2)

/-- C1 counterexample: `fsD` is acyclic (witnessed by a strictly monotone
rank), yet `findImports` rejects it with the cyclic-import error — the
diamond node `d` is re-discovered at a deeper layer, so the scan returns
no result set at all, refuting the claim as stated. -/
theorem C1_counterexample :
    (∀ u, ¬ CycAt fsD u) ∧
    findImports fsD ["a"] = some (.error (.cyclic "d" ["f"])) := by
  exact ⟨rank_acyclic fsD_rank_mono, by decide⟩

/-- C1 witness: on the two-file line `a.ts → b.ts` the scan succeeds and
the amended theorem applies. -/
theorem C1_witness :
    findImports fsLine ["a.ts"] = some (.ok ["a.ts", "b.ts"]) ∧
    (∀ v, v ∈ ["a.ts", "b.ts"] ↔ Reaches fsLine ["a.ts"] v) := by
  have h : findImports fsLine ["a.ts"] = some (.ok ["a.ts", "b.ts"]) := by decide
  exact ⟨h, (C1_scan_success_returns_reachable_set h).1⟩

/-! ## Claim C2 -/

/-- C2 (corrected): when `Bun.resolveSync` does not throw on any import of
any scanned file, every import cycle reachable from an entry path makes
`findImports` terminate with the cyclic-import error — it neither returns
a result set nor diverges (`some` excludes fuel exhaustion), and the error
names an offending parent together with a non-empty list of repeated
children.  Without that proviso the uncaught resolver error can pre-empt
the cyclic one (see the counterexample). -/
theorem C2_reachable_cycle_scan_fails {fs : FS} {paths : List String}
    (hres : ∀ p, fs.expandable p = true → fs.resolveFails p = false)
    (h : ReachableCycle fs paths) :
    ∃ p ov, findImports fs paths = some (.error (.cyclic p ov)) ∧ ov ≠ [] :=
  findImports_cycle_error hres h

/-- C2 counterexample: `a.ts ↔ b.ts` is a cycle reachable from the entry
`a.ts`, but `a.ts` also holds an import specifier on which
`Bun.resolveSync` throws — uncaught (src/find-imports.ts lines 94-98) —
so the scan rejects with the resolver's error and never reports the
cycle, refuting the claim as stated. -/
theorem C2_counterexample :
    ReachableCycle fsABRes ["a.ts"] ∧
    findImports fsABRes ["a.ts"] = some (.error (.unresolvable "a.ts")) ∧
    ∀ p ov, findImports fsABRes ["a.ts"] ≠ some (.error (.cyclic p ov)) := by
  refine ⟨?_, by decide, ?_⟩
  · refine ⟨"a.ts", ⟨"a.ts", by decide, Relation.ReflTransGen.refl⟩,
      "b.ts", ⟨by decide, by decide⟩, Relation.ReflTransGen.single ⟨by decide, by decide⟩⟩
  · intro p ov hc
    have h2 : findImports fsABRes ["a.ts"] = some (.error (.unresolvable "a.ts")) := by
      decide
    rw [h2] at hc
    simp at hc

/-- C2 witness: on `a.ts ↔ b.ts` with fully resolvable imports the
amended theorem applies, and concretely the error names `a.ts` with
repeated child `b.ts`. -/
theorem C2_witness :
    (∀ p, fsAB.expandable p = true → fsAB.resolveFails p = false) ∧
    ReachableCycle fsAB ["a.ts"] ∧
    (∃ p ov, findImports fsAB ["a.ts"] = some (.error (.cyclic p ov)) ∧ ov ≠ []) ∧
    findImports fsAB ["a.ts"] = some (.error (.cyclic "a.ts" ["b.ts"])) := by
  have hres : ∀ p, fsAB.expandable p = true → fsAB.resolveFails p = false :=
    fun _ _ => rfl
  have hcyc : ReachableCycle fsAB ["a.ts"] := by
    refine ⟨"a.ts", ⟨"a.ts", by decide, Relation.ReflTransGen.refl⟩,
      "b.ts", ⟨by decide, by decide⟩, Relation.ReflTransGen.single ⟨by decide, by decide⟩⟩
  exact ⟨hres, hcyc, C2_reachable_cycle_scan_fails hres hcyc, by decide⟩

/-! ## `DependencyWatcher` state-machine facts -/

theorem depRescan_closed {fs : FS} {w : DepWatcher} {wd : World}
    (h : w.state = .closed) : depRescan fs w wd = (.errClosed, w, wd, []) := by
  rw [depRescan, if_pos h]

theorem depWatch_watching {fs : FS} {w : DepWatcher} {wd : World}
    (h : w.state = .watching) : depWatch fs w wd = (none, w, wd, []) := by
  rw [depWatch, if_pos h]

theorem depClose_closed {w : DepWatcher} {wd : World}
    (h : w.state = .closed) : depClose w wd = (w, wd, []) := by
  rw [depClose, if_pos h]

theorem depRescan_unfold_none {fs : FS} {w : DepWatcher} {wd : World}
    (hc : w.state ≠ .closed) (hfi : findImports fs w.fullPaths = none) :
    depRescan fs w wd =
      (.errFuel, ⟨w.fullPaths, .watching, w.watchers, w.closeHooks⟩,
        disposeAll wd w.watchers, []) := by
  simp only [depRescan, if_neg hc, hfi]

theorem depRescan_unfold_err {fs : FS} {w : DepWatcher} {wd : World} {e : ScanError}
    (hc : w.state ≠ .closed) (hfi : findImports fs w.fullPaths = some (.error e)) :
    depRescan fs w wd =
      (.errScan e, ⟨w.fullPaths, .watching, w.watchers, w.closeHooks⟩,
        disposeAll wd w.watchers, []) := by
  simp only [depRescan, if_neg hc, hfi]

theorem depRescan_unfold_subfail {fs : FS} {w : DepWatcher} {wd wd2 : World}
    {ps : List String} (hc : w.state ≠ .closed)
    (hfi : findImports fs w.fullPaths = some (.ok ps))
    (hsub : subscribeAll fs (disposeAll wd w.watchers) ps = (none, wd2)) :
    depRescan fs w wd =
      (.errSubscribe, ⟨w.fullPaths, .watching, w.watchers, w.closeHooks⟩, wd2, []) := by
  simp only [depRescan, if_neg hc, hfi, hsub]

theorem depRescan_unfold_ok {fs : FS} {w : DepWatcher} {wd wd2 : World}
    {ps : List String} {hs : List Handle} (hc : w.state ≠ .closed)
    (hfi : findImports fs w.fullPaths = some (.ok ps))
    (hsub : subscribeAll fs (disposeAll wd w.watchers) ps = (some hs, wd2)) :
    depRescan fs w wd =
      (.ok ps, ⟨w.fullPaths, .watching, hs, w.closeHooks + 1⟩, wd2, [.watch ps]) := by
  simp only [depRescan, if_neg hc, hfi, hsub]

theorem depRescan_ok_parts {fs : FS} {w : DepWatcher} {wd : World} {ps : List String}
    (h : (depRescan fs w wd).1 = .ok ps) :
    w.state ≠ .closed ∧
    findImports fs w.fullPaths = some (.ok ps) ∧
    ∃ hs wd2, subscribeAll fs (disposeAll wd w.watchers) ps = (some hs, wd2) ∧
      depRescan fs w wd =
        (.ok ps, ⟨w.fullPaths, .watching, hs, w.closeHooks + 1⟩, wd2, [.watch ps]) := by
  by_cases hc : w.state = .closed
  · rw [depRescan_closed hc] at h
    simp at h
  · rcases hfi : findImports fs w.fullPaths with _ | r
    · rw [depRescan_unfold_none hc hfi] at h
      simp at h
    · rcases r with e | ps'
      · rw [depRescan_unfold_err hc hfi] at h
        simp at h
      · rcases hsub : subscribeAll fs (disposeAll wd w.watchers) ps' with ⟨o, wd2⟩
        rcases o with _ | hs
        · rw [depRescan_unfold_subfail hc hfi hsub] at h
          simp at h
        · rw [depRescan_unfold_ok hc hfi hsub] at h
          simp only [RescanResult.ok.injEq] at h
          subst h
          exact ⟨hc, rfl, hs, wd2, hsub, depRescan_unfold_ok hc hfi hsub⟩

theorem depRescan_fail_parts {fs : FS} {w : DepWatcher} {wd : World}
    (hc : w.state ≠ .closed)
    (h : ∀ ps, (depRescan fs w wd).1 ≠ .ok ps) :
    (depRescan fs w wd).2.1.state = .watching ∧
    (depRescan fs w wd).2.1.watchers = w.watchers ∧
    (depRescan fs w wd).2.1.fullPaths = w.fullPaths ∧
    (depRescan fs w wd).2.1.closeHooks = w.closeHooks ∧
    (depRescan fs w wd).2.2.2 = [] := by
  rcases hfi : findImports fs w.fullPaths with _ | r
  · rw [depRescan_unfold_none hc hfi]
    exact ⟨rfl, rfl, rfl, rfl, rfl⟩
  · rcases r with e | ps'
    · rw [depRescan_unfold_err hc hfi]
      exact ⟨rfl, rfl, rfl, rfl, rfl⟩
    · rcases hsub : subscribeAll fs (disposeAll wd w.watchers) ps' with ⟨o, wd2⟩
      rcases o with _ | hs
      · rw [depRescan_unfold_subfail hc hfi hsub]
        exact ⟨rfl, rfl, rfl, rfl, rfl⟩
      · exfalso
        refine h ps' ?_
        rw [depRescan_unfold_ok hc hfi hsub]

/-! ## Claim C8 -/

/-- C8 (confirmed): on a closed watcher, `rescan()` and `watch()` both
reject with the closed-watcher error and have no effect at all (state,
recorded handles, notifier world and emitted events are unchanged), while
a further `close()` is silently ignored. -/
theorem C8_closed_watcher_rejects {fs : FS} {w : DepWatcher} {wd : World}
    (h : w.state = .closed) :
    depRescan fs w wd = (.errClosed, w, wd, []) ∧
    depWatch fs w wd = (some .errClosed, w, wd, []) ∧
    depClose w wd = (w, wd, []) := by
  have h1 : depRescan fs w wd = (.errClosed, w, wd, []) := depRescan_closed h
  refine ⟨h1, ?_, depClose_closed h⟩
  rw [depWatch, if_neg (by simp [h]), h1]

/-- C8 witness: a concrete closed watcher. -/
theorem C8_witness :
    ({ DepWatcher.init ["a.ts"] with state := .closed } : DepWatcher).state = .closed ∧
    depRescan fsOne { DepWatcher.init ["a.ts"] with state := .closed } World.init =
      (.errClosed, { DepWatcher.init ["a.ts"] with state := .closed }, World.init, []) ∧
    depWatch fsOne { DepWatcher.init ["a.ts"] with state := .closed } World.init =
      (some .errClosed, { DepWatcher.init ["a.ts"] with state := .closed }, World.init, []) ∧
    depClose { DepWatcher.init ["a.ts"] with state := .closed } World.init =
      ({ DepWatcher.init ["a.ts"] with state := .closed }, World.init, []) := by
  have h := @C8_closed_watcher_rejects fsOne
    { DepWatcher.init ["a.ts"] with state := .closed } World.init rfl
  exact ⟨rfl, h.1, h.2.1, h.2.2⟩

/-! ## Claim C7 -/

/-- C7 (confirmed): after a successful `watch()`, the state is `watching`,
so a second `watch()` without an intervening `close()`/`rescan()` returns
`undefined` and performs no side effects whatsoever: no scan, no handle
subscription or disposal, no event. -/
theorem C7_second_watch_is_noop {fs : FS} {w : DepWatcher} {wd : World} {ps : List String}
    (h : (depWatch fs w wd).1 = some (.ok ps)) :
    depWatch fs (depWatch fs w wd).2.1 ((depWatch fs w wd).2.2.1) =
      (none, (depWatch fs w wd).2.1, (depWatch fs w wd).2.2.1, []) := by
  by_cases hw : w.state = .watching
  · rw [depWatch_watching hw] at h
    simp at h
  · have hre : (depRescan fs w wd).1 = .ok ps := by
      rw [depWatch, if_neg hw] at h
      simpa using h
    obtain ⟨_, _, hs, wd2, _, heq⟩ := depRescan_ok_parts hre
    have hw1 : (depWatch fs w wd).2.1.state = .watching := by
      rw [depWatch, if_neg hw]
      simp only [heq]
    exact depWatch_watching hw1

/-- C7 witness: on the one-file system the first `watch()` succeeds and
the second is the no-op. -/
theorem C7_witness :
    (depWatch fsOne (DepWatcher.init ["a.ts"]) World.init).1 = some (.ok ["a.ts"]) ∧
    depWatch fsOne (depWatch fsOne (DepWatcher.init ["a.ts"]) World.init).2.1
        ((depWatch fsOne (DepWatcher.init ["a.ts"]) World.init).2.2.1) =
      (none, (depWatch fsOne (DepWatcher.init ["a.ts"]) World.init).2.1,
        (depWatch fsOne (DepWatcher.init ["a.ts"]) World.init).2.2.1, []) := by
  have h : (depWatch fsOne (DepWatcher.init ["a.ts"]) World.init).1 = some (.ok ["a.ts"]) := by
    decide
  exact ⟨h, C7_second_watch_is_noop h⟩

/-! ## Claim C3 -/

/-- C3 counterexample: with a single entry path that does not exist on
disk, `watch()` from the `Ready` state rejects (the scan succeeds but the
notifier subscription throws), yet the state afterwards is `Watching`,
not the prior `Ready` — refuting "the WatcherState after the failed call
equals the state before it". -/
theorem C3_counterexample :
    (DepWatcher.init ["ghost.ts"]).state = .ready ∧
    (depWatch fsGhost (DepWatcher.init ["ghost.ts"]) World.init).1 = some .errSubscribe ∧
    (depWatch fsGhost (DepWatcher.init ["ghost.ts"]) World.init).2.1.state = .watching := by
  exact ⟨rfl, by decide, by decide⟩

/-- C3 (corrected): a failed `watch()`/`rescan()` (scan rejection or
notifier-subscription failure) installs no partial `WatchSet` — the
recorded handles, entry paths and close-hook count are untouched and no
`watch` event is emitted — but it does not preserve the prior state:
`this.state` is set to `"watching"` before the scan is awaited, so the
watcher is left `Watching` even when the call started from `Ready`. -/
theorem C3_failed_rescan_no_partial_install {fs : FS} {w : DepWatcher} {wd : World}
    (hc : w.state ≠ .closed) (h : ∀ ps, (depRescan fs w wd).1 ≠ .ok ps) :
    (depRescan fs w wd).2.1.state = .watching ∧
    (depRescan fs w wd).2.1.watchers = w.watchers ∧
    (depRescan fs w wd).2.1.fullPaths = w.fullPaths ∧
    (depRescan fs w wd).2.1.closeHooks = w.closeHooks ∧
    (depRescan fs w wd).2.2.2 = [] :=
  depRescan_fail_parts hc h

/-- C3 witness: the missing-entry scenario instantiates the amended
theorem. -/
theorem C3_witness :
    (DepWatcher.init ["ghost.ts"]).state ≠ WState.closed ∧
    (∀ ps, (depRescan fsGhost (DepWatcher.init ["ghost.ts"]) World.init).1 ≠ .ok ps) ∧
    (depRescan fsGhost (DepWatcher.init ["ghost.ts"]) World.init).2.1.state = .watching ∧
    (depRescan fsGhost (DepWatcher.init ["ghost.ts"]) World.init).2.1.watchers =
      (DepWatcher.init ["ghost.ts"]).watchers ∧
    (depRescan fsGhost (DepWatcher.init ["ghost.ts"]) World.init).2.2.2 = [] := by
  have hc : (DepWatcher.init ["ghost.ts"]).state ≠ WState.closed := by decide
  have h : ∀ ps, (depRescan fsGhost (DepWatcher.init ["ghost.ts"]) World.init).1 ≠ .ok ps := by
    intro ps hps
    have : (depRescan fsGhost (DepWatcher.init ["ghost.ts"]) World.init).1 = .errSubscribe := by
      decide
    rw [this] at hps
    cases hps
  have hmain := C3_failed_rescan_no_partial_install hc h
  exact ⟨hc, h, hmain.1, hmain.2.1, hmain.2.2.2.2⟩

/-! ## Structure of successful subscriptions -/

theorem scanLoop_ok_nodup {fs : FS} :
    ∀ (fuel : Nat) {all found : PathsMap} {S : List String},
      scanLoop fs fuel all found = some (.ok S) → S.Nodup := by
  intro fuel
  induction fuel with
  | zero => intro all found S h; cases h
  | succ n ih =>
    intro all found S h
    rw [scanLoop] at h
    by_cases hemp : found.isEmpty
    · rw [if_pos hemp] at h
      cases h
      exact List.nodup_dedup _
    · rw [if_neg hemp] at h
      rcases hm : mergePaths all found with e | all'
      · rw [hm] at h
        cases h
      · rw [hm] at h
        rcases hfio : findImportsOnce fs (frontierList found) with e2 | next
        · rw [hfio] at h
          simp at h
        · rw [hfio] at h
          exact ih h

/-- On success the scan result has no duplicate paths. -/
theorem findImports_ok_nodup {fs : FS} {paths S : List String}
    (h : findImports fs paths = some (.ok S)) : S.Nodup := by
  rw [findImports] at h
  exact scanLoop_ok_nodup _ h

theorem subscribeAll_ok_parts {fs : FS} :
    ∀ {ps : List String} {wd wd2 : World} {hs : List Handle},
      subscribeAll fs wd ps = (some hs, wd2) →
      hs.map Handle.path = ps ∧
      hs.map Handle.id = List.range' wd.nextId ps.length 1 ∧
      wd2.nextId = wd.nextId + ps.length ∧
      wd2.created = wd.created ++ hs ∧
      wd2.disposeCalls = wd.disposeCalls := by
  intro ps
  induction ps with
  | nil =>
    intro wd wd2 hs h
    rw [subscribeAll] at h
    cases h
    simp
  | cons p rest ih =>
    intro wd wd2 hs h
    rw [subscribeAll] at h
    by_cases hex : fs.existsOn p = true
    · rw [subscribeOne, if_pos hex] at h
      simp only at h
      rcases hrest : subscribeAll fs
          { wd with nextId := wd.nextId + 1, created := wd.created ++ [⟨wd.nextId, p⟩] }
          rest with ⟨o, wd3⟩
      rw [hrest] at h
      rcases o with _ | hs'
      · cases h
      · cases h
        obtain ⟨h1, h2, h3, h4, h5⟩ := ih hrest
        refine ⟨by simp [h1], ?_, by rw [h3]; simp; omega, by simpa using h4,
          by simpa using h5⟩
        simp only [List.map_cons, List.length_cons]
        rw [List.range'_succ]
        simpa using h2
    · rw [subscribeOne, if_neg hex] at h
      simp only at h
      cases h

/-! ## Event and dispose bookkeeping -/

theorem countWatch_append (a b : List WEvent) :
    countWatch (a ++ b) = countWatch a + countWatch b := by
  simp [countWatch, List.filter_append]

theorem countChange_append (a b : List WEvent) :
    countChange (a ++ b) = countChange a + countChange b := by
  simp [countChange, List.filter_append]

theorem countClose_append (a b : List WEvent) :
    countClose (a ++ b) = countClose a + countClose b := by
  simp [countClose, List.filter_append]

theorem countBuild_append (a b : List WEvent) :
    countBuild (a ++ b) = countBuild a + countBuild b := by
  simp [countBuild, List.filter_append]

@[simp] theorem disposeAll_created (wd : World) (hs : List Handle) :
    (disposeAll wd hs).created = wd.created := rfl

@[simp] theorem disposeAll_nextId (wd : World) (hs : List Handle) :
    (disposeAll wd hs).nextId = wd.nextId := rfl

theorem disposeAll_calls (wd : World) (hs : List Handle) :
    (disposeAll wd hs).disposeCalls = wd.disposeCalls ++ hs := rfl

theorem isOk_iff {r : RescanResult} : r.isOk = true ↔ ∃ ps, r = .ok ps := by
  cases r <;> simp [RescanResult.isOk]

/-! ## The invariant of repeated successful rescans -/

theorem rescanN_inv {fs : FS} {paths : List String} :
    ∀ n, rescanAllOk fs paths n →
      (rescanN fs paths n).1.fullPaths = paths ∧
      (rescanN fs paths n).1.closeHooks = n ∧
      (n = 0 → (rescanN fs paths n).1 = DepWatcher.init paths) ∧
      (1 ≤ n → (rescanN fs paths n).1.state = .watching) ∧
      countWatch (rescanN fs paths n).2.2 = n ∧
      countClose (rescanN fs paths n).2.2 = 0 ∧
      countChange (rescanN fs paths n).2.2 = 0 ∧
      ((rescanN fs paths n).1.watchers.map Handle.path).Nodup ∧
      (rescanN fs paths n).1.watchers.Nodup ∧
      (∀ h ∈ (rescanN fs paths n).1.watchers, h ∈ (rescanN fs paths n).2.1.created) ∧
      (∀ h ∈ (rescanN fs paths n).2.1.created, h.id < (rescanN fs paths n).2.1.nextId) ∧
      (∀ h ∈ (rescanN fs paths n).1.watchers, h ∉ (rescanN fs paths n).2.1.disposeCalls) ∧
      (∀ h ∈ (rescanN fs paths n).2.1.created, h ∉ (rescanN fs paths n).1.watchers →
        (rescanN fs paths n).2.1.disposeCalls.count h = 1) ∧
      (∀ h ∈ (rescanN fs paths n).2.1.disposeCalls, h ∈ (rescanN fs paths n).2.1.created) ∧
      (rescanN fs paths n).2.1.disposeCalls.Nodup := by
  intro n
  induction n with
  | zero =>
    intro _
    refine ⟨rfl, rfl, fun _ => rfl, by omega, rfl, rfl, rfl, ?_, ?_, ?_, ?_, ?_, ?_, ?_, ?_⟩
      <;> simp [rescanN, DepWatcher.init, World.init]
  | succ n ih =>
    intro hok
    have hok' : rescanAllOk fs paths n := fun i hi => hok i (Nat.lt_succ_of_lt hi)
    obtain ⟨ihFP, ihCH, _, _, ihCW, ihCC, ihCCh, _, ihHN, ihCr, ihId, ihLive,
      ihOnce, ihDC, ihDN⟩ := ih hok'
    obtain ⟨ps, hps⟩ := isOk_iff.1 (hok n (Nat.lt_succ_self n))
    obtain ⟨hc, hfi, hs, wd2, hsub, heq⟩ := depRescan_ok_parts hps
    have hnext : rescanN fs paths (n + 1) =
        ((⟨(rescanN fs paths n).1.fullPaths, .watching, hs,
            (rescanN fs paths n).1.closeHooks + 1⟩ : DepWatcher), wd2,
          (rescanN fs paths n).2.2 ++ [.watch ps]) := by
      rw [rescanN]
      simp only [heq]
    obtain ⟨hmapPath, hmapId, hnid, hcr, hdc⟩ := subscribeAll_ok_parts hsub
    rw [disposeAll_calls] at hdc
    rw [disposeAll_created] at hcr
    rw [disposeAll_nextId] at hnid hmapId
    have hpsnd : ps.Nodup := findImports_ok_nodup hfi
    have hhsPathNodup : (hs.map Handle.path).Nodup := by rw [hmapPath]; exact hpsnd
    have hhsNodup : hs.Nodup := List.Nodup.of_map _ hhsPathNodup
    have hfresh : ∀ h ∈ hs, (rescanN fs paths n).2.1.nextId ≤ h.id ∧
        h.id < (rescanN fs paths n).2.1.nextId + ps.length := by
      intro h hh
      have : h.id ∈ List.range' (rescanN fs paths n).2.1.nextId ps.length 1 := by
        rw [← hmapId]
        exact List.mem_map_of_mem _ hh
      rw [List.mem_range'_1] at this
      exact this
    have holdid : ∀ h ∈ (rescanN fs paths n).2.1.created,
        h.id < (rescanN fs paths n).2.1.nextId := ihId
    have hsepar : ∀ h ∈ hs, h ∉ (rescanN fs paths n).2.1.created := by
      intro h hh hcrd
      have h1 := (hfresh h hh).1
      have h2 := holdid h hcrd
      omega
    refine ⟨?_, ?_, ?_, ?_, ?_, ?_, ?_, ?_, ?_, ?_, ?_, ?_, ?_, ?_, ?_⟩
    · rw [hnext]
      exact ihFP
    · rw [hnext]
      simp only
      rw [ihCH]
    · omega
    · intro _
      rw [hnext]
    · rw [hnext]
      simp only
      rw [countWatch_append, ihCW]
      rfl
    · rw [hnext]
      simp only
      rw [countClose_append, ihCC]
      rfl
    · rw [hnext]
      simp only
      rw [countChange_append, ihCCh]
      rfl
    · rw [hnext]
      exact hhsPathNodup
    · rw [hnext]
      exact hhsNodup
    · rw [hnext]
      simp only
      intro h hh
      rw [hcr]
      exact List.mem_append.2 (Or.inr hh)
    · rw [hnext]
      simp only
      intro h hh
      rw [hcr] at hh
      rw [hnid]
      rcases List.mem_append.1 hh with hh1 | hh1
      · have := holdid h hh1
        omega
      · exact (hfresh h hh1).2
    · rw [hnext]
      simp only
      intro h hh
      rw [hdc]
      intro hmem
      rcases List.mem_append.1 hmem with hm1 | hm1
      · exact hsepar h hh (ihDC h hm1)
      · exact hsepar h hh (ihCr h hm1)
    · rw [hnext]
      simp only
      intro h hh hnw
      rw [hcr] at hh
      rw [hdc, List.count_append]
      rcases List.mem_append.1 hh with hh1 | hh1
      · by_cases hw : h ∈ (rescanN fs paths n).1.watchers
        · have h0 : (rescanN fs paths n).2.1.disposeCalls.count h = 0 :=
            List.count_eq_zero.2 (ihLive h hw)
          have h1 : ((rescanN fs paths n).1.watchers.count h) = 1 :=
            List.count_eq_one_of_mem ihHN hw
          omega
        · have h1 := ihOnce h hh1 hw
          have h0 : ((rescanN fs paths n).1.watchers.count h) = 0 :=
            List.count_eq_zero.2 hw
          omega
      · exact absurd hh1 hnw
    · rw [hnext]
      simp only
      intro h hh
      rw [hdc] at hh
      rw [hcr]
      rcases List.mem_append.1 hh with hh1 | hh1
      · exact List.mem_append.2 (Or.inl (ihDC h hh1))
      · exact List.mem_append.2 (Or.inl (ihCr h hh1))
    · rw [hnext]
      simp only
      rw [hdc]
      rw [List.nodup_append]
      exact ⟨ihDN, ihHN, fun h hh1 hh2 => (ihLive h hh2) hh1⟩

/-! ## Claim C5 -/

/-- C5 (confirmed): `n` successful `rescan()` calls emit exactly `n`
`watch` events (one per call, even when the path set is unchanged); at
any point the live notifier handles are exactly the watcher's current
handles, which watch pairwise-distinct files (at most one live handle per
discovered file); and every handle of a prior WatchSet has already been
disposed when the set that replaced it was installed. -/
theorem C5_n_rescans_n_watch_events {fs : FS} {paths : List String} {n : Nat}
    (hok : rescanAllOk fs paths n) :
    countWatch (rescanN fs paths n).2.2 = n ∧
    (∀ h, World.live (rescanN fs paths n).2.1 h ↔ h ∈ (rescanN fs paths n).1.watchers) ∧
    ((rescanN fs paths n).1.watchers.map Handle.path).Nodup ∧
    (∀ h ∈ (rescanN fs paths n).2.1.created, h ∉ (rescanN fs paths n).1.watchers →
      h ∈ (rescanN fs paths n).2.1.disposeCalls) := by
  obtain ⟨_, _, _, _, hCW, _, _, hPN, _, hCr, _, hLive, hOnce, _, _⟩ := rescanN_inv n hok
  have hmemOnce : ∀ h ∈ (rescanN fs paths n).2.1.created,
      h ∉ (rescanN fs paths n).1.watchers → h ∈ (rescanN fs paths n).2.1.disposeCalls := by
    intro h hcr hw
    have hcnt := hOnce h hcr hw
    have : 0 < (rescanN fs paths n).2.1.disposeCalls.count h := by omega
    exact List.count_pos_iff.1 this
  refine ⟨hCW, ?_, hPN, hmemOnce⟩
  intro h
  constructor
  · rintro ⟨hcr, hnd⟩
    by_contra hw
    exact hnd (hmemOnce h hcr hw)
  · intro hw
    exact ⟨hCr h hw, hLive h hw⟩

/-- C5 witness: two successful rescans on the one-file system. -/
theorem C5_witness :
    rescanAllOk fsOne ["a.ts"] 2 ∧
    countWatch (rescanN fsOne ["a.ts"] 2).2.2 = 2 ∧
    (∀ h, World.live (rescanN fsOne ["a.ts"] 2).2.1 h ↔
      h ∈ (rescanN fsOne ["a.ts"] 2).1.watchers) ∧
    ((rescanN fsOne ["a.ts"] 2).1.watchers.map Handle.path).Nodup := by
  have hok : rescanAllOk fsOne ["a.ts"] 2 := by
    intro i hi
    interval_cases i <;> decide
  have h := C5_n_rescans_n_watch_events hok
  exact ⟨hok, h.1, h.2.1, h.2.2.1⟩

/-! ## Closing the watcher -/

theorem depClose_open {w : DepWatcher} {wd : World} (h : ¬ w.state = .closed) :
    depClose w wd = (⟨w.fullPaths, .closed, w.watchers, 0⟩,
      (List.range w.closeHooks).foldl (fun acc _ => disposeAll acc w.watchers)
        (disposeAll wd w.watchers), [.close]) := by
  simp only [depClose, if_neg h]

theorem foldl_dispose_count (hs : List Handle) (h : Handle) :
    ∀ (k : Nat) (wd : World),
      ((List.range k).foldl (fun acc _ => disposeAll acc hs) wd).disposeCalls.count h =
        wd.disposeCalls.count h + k * hs.count h := by
  intro k
  induction k with
  | zero => intro wd; simp
  | succ m ih =>
    intro wd
    rw [List.range_succ, List.foldl_append]
    simp only [List.foldl_cons, List.foldl_nil]
    rw [disposeAll_calls, List.count_append, ih wd]
    ring

theorem foldl_dispose_created (hs : List Handle) :
    ∀ (k : Nat) (wd : World),
      ((List.range k).foldl (fun acc _ => disposeAll acc hs) wd).created = wd.created := by
  intro k
  induction k with
  | zero => intro wd; simp
  | succ m ih =>
    intro wd
    rw [List.range_succ, List.foldl_append]
    simp only [List.foldl_cons, List.foldl_nil]
    rw [disposeAll_created, ih wd]

/-! ## Claim C6 -/

/-- C6 (corrected): after `n` successful rescans, `close()` emits exactly
one `close` event and a second `close()` is a complete no-op, and every
handle ever created ends up disposed; but "each handle is disposed
exactly once" fails — the final WatchSet's handles receive `1 + n`
dispose calls (one from `close()` itself plus one from each accumulated
`once("close")` hook), while replaced handles of earlier WatchSets
received exactly one.  Disposal of an `FSWatcher` is idempotent, so each
handle still transitions to closed only once. -/
theorem C6_close_idempotent_one_close_event {fs : FS} {paths : List String} {n : Nat}
    (hok : rescanAllOk fs paths n) :
    countClose (depClose (rescanN fs paths n).1 (rescanN fs paths n).2.1).2.2 = 1 ∧
    depClose (depClose (rescanN fs paths n).1 (rescanN fs paths n).2.1).1
        (depClose (rescanN fs paths n).1 (rescanN fs paths n).2.1).2.1 =
      ((depClose (rescanN fs paths n).1 (rescanN fs paths n).2.1).1,
        (depClose (rescanN fs paths n).1 (rescanN fs paths n).2.1).2.1, []) ∧
    (∀ h ∈ (depClose (rescanN fs paths n).1 (rescanN fs paths n).2.1).2.1.created,
      1 ≤ (depClose (rescanN fs paths n).1
        (rescanN fs paths n).2.1).2.1.disposeCalls.count h) ∧
    (∀ h ∈ (rescanN fs paths n).1.watchers,
      (depClose (rescanN fs paths n).1
        (rescanN fs paths n).2.1).2.1.disposeCalls.count h = 1 + n) ∧
    (∀ h ∈ (depClose (rescanN fs paths n).1 (rescanN fs paths n).2.1).2.1.created,
      h ∉ (rescanN fs paths n).1.watchers →
      (depClose (rescanN fs paths n).1
        (rescanN fs paths n).2.1).2.1.disposeCalls.count h = 1) := by
  obtain ⟨_, hCH, hInit, hW, _, _, _, _, hHN, hCr, _, hLive, hOnce, hDCsub, _⟩ :=
    rescanN_inv n hok
  have hc : ¬ (rescanN fs paths n).1.state = .closed := by
    rcases Nat.eq_zero_or_pos n with hn | hn
    · rw [hInit hn]
      intro hcl
      cases hcl
    · rw [hW hn]
      intro hcl
      cases hcl
  have hcount : ∀ h : Handle,
      (depClose (rescanN fs paths n).1
        (rescanN fs paths n).2.1).2.1.disposeCalls.count h =
      (rescanN fs paths n).2.1.disposeCalls.count h +
        (rescanN fs paths n).1.watchers.count h +
        n * (rescanN fs paths n).1.watchers.count h := by
    intro h
    rw [depClose_open hc]
    simp only
    rw [foldl_dispose_count, disposeAll_calls, List.count_append, hCH]
  have hcreated : (depClose (rescanN fs paths n).1
      (rescanN fs paths n).2.1).2.1.created = (rescanN fs paths n).2.1.created := by
    rw [depClose_open hc]
    simp only
    rw [foldl_dispose_created, disposeAll_created]
  refine ⟨?_, ?_, ?_, ?_, ?_⟩
  · rw [depClose_open hc]
    rfl
  · refine depClose_closed ?_
    rw [depClose_open hc]
  · intro h hcr
    rw [hcreated] at hcr
    rw [hcount h]
    by_cases hw : h ∈ (rescanN fs paths n).1.watchers
    · have h1 : (rescanN fs paths n).1.watchers.count h = 1 :=
        List.count_eq_one_of_mem hHN hw
      rw [h1]
      omega
    · have h1 := hOnce h hcr hw
      have h0 : (rescanN fs paths n).1.watchers.count h = 0 :=
        List.count_eq_zero.2 hw
      rw [h0, h1]
      omega
  · intro h hw
    rw [hcount h]
    have h0 : (rescanN fs paths n).2.1.disposeCalls.count h = 0 :=
      List.count_eq_zero.2 (hLive h hw)
    have h1 : (rescanN fs paths n).1.watchers.count h = 1 :=
      List.count_eq_one_of_mem hHN hw
    rw [h0, h1]
    omega
  · intro h hcr hw
    rw [hcreated] at hcr
    rw [hcount h]
    have h0 : (rescanN fs paths n).1.watchers.count h = 0 :=
      List.count_eq_zero.2 hw
    have h1 := hOnce h hcr hw
    rw [h0, h1]
    omega

/-- C6 counterexample: one successful rescan then `close()` — the single
handle is created once but receives two dispose calls (the direct loop in
`close()` and the `once("close")` hook registered by the rescan), so
"disposes each handle exactly once" is false as stated. -/
theorem C6_counterexample :
    countClose (depClose (rescanN fsOne ["a.ts"] 1).1
      (rescanN fsOne ["a.ts"] 1).2.1).2.2 = 1 ∧
    (⟨0, "a.ts"⟩ : Handle) ∈ (rescanN fsOne ["a.ts"] 1).2.1.created ∧
    (depClose (rescanN fsOne ["a.ts"] 1).1
      (rescanN fsOne ["a.ts"] 1).2.1).2.1.disposeCalls.count ⟨0, "a.ts"⟩ = 2 := by
  exact ⟨by decide, by decide, by decide⟩

/-- C6 witness: the amended theorem at one successful rescan. -/
theorem C6_witness :
    rescanAllOk fsOne ["a.ts"] 1 ∧
    countClose (depClose (rescanN fsOne ["a.ts"] 1).1
      (rescanN fsOne ["a.ts"] 1).2.1).2.2 = 1 ∧
    depClose (depClose (rescanN fsOne ["a.ts"] 1).1 (rescanN fsOne ["a.ts"] 1).2.1).1
        (depClose (rescanN fsOne ["a.ts"] 1).1 (rescanN fsOne ["a.ts"] 1).2.1).2.1 =
      ((depClose (rescanN fsOne ["a.ts"] 1).1 (rescanN fsOne ["a.ts"] 1).2.1).1,
        (depClose (rescanN fsOne ["a.ts"] 1).1 (rescanN fsOne ["a.ts"] 1).2.1).2.1, []) ∧
    (∀ h ∈ (rescanN fsOne ["a.ts"] 1).1.watchers,
      (depClose (rescanN fsOne ["a.ts"] 1).1
        (rescanN fsOne ["a.ts"] 1).2.1).2.1.disposeCalls.count h = 1 + 1) := by
  have hok : rescanAllOk fsOne ["a.ts"] 1 := by
    intro i hi
    have hi0 : i = 0 := by omega
    subst hi0
    decide
  have h := C6_close_idempotent_one_close_event hok
  exact ⟨hok, h.1, h.2.1, h.2.2.2.1⟩

/-! ## `BuildWatcher` build-counting -/

theorem depRescan_events (fs : FS) (w : DepWatcher) (wd : World) :
    (depRescan fs w wd).2.2.2 = [] ∨
    ∃ ps, (depRescan fs w wd).1 = .ok ps ∧ (depRescan fs w wd).2.2.2 = [.watch ps] := by
  by_cases hc : w.state = .closed
  · rw [depRescan_closed hc]
    exact Or.inl rfl
  · rcases hfi : findImports fs w.fullPaths with _ | r
    · rw [depRescan_unfold_none hc hfi]
      exact Or.inl rfl
    · rcases r with e | ps
      · rw [depRescan_unfold_err hc hfi]
        exact Or.inl rfl
      · rcases hsub : subscribeAll fs (disposeAll wd w.watchers) ps with ⟨o, wd2⟩
        rcases o with _ | hs
        · rw [depRescan_unfold_subfail hc hfi hsub]
          exact Or.inl rfl
        · rw [depRescan_unfold_ok hc hfi hsub]
          exact Or.inr ⟨ps, rfl, rfl⟩

theorem depClose_events (w : DepWatcher) (wd : World) :
    (depClose w wd).2.2 = [] ∨ (depClose w wd).2.2 = [.close] := by
  by_cases hc : w.state = .closed
  · rw [depClose_closed hc]
    exact Or.inl rfl
  · rw [depClose_open hc]
    exact Or.inr rfl

theorem bwRescan_unfold_fail {fs : FS} {b : BuildW} {wd : World} {res : RescanResult}
    {d1 : DepWatcher} {wd1 : World} {ev1 : List WEvent}
    (hdr : depRescan fs b.dep wd = (res, d1, wd1, ev1)) (hres : ∀ ps, res ≠ .ok ps) :
    bwRescan fs b wd = (res, { b with dep := d1 }, wd1, ev1) := by
  rw [bwRescan, hdr]
  cases res with
  | ok ps => exact absurd rfl (hres ps)
  | errClosed => rfl
  | errScan e => rfl
  | errSubscribe => rfl
  | errFuel => rfl

theorem bwRescan_unfold_ok_unarmed {fs : FS} {b : BuildW} {wd : World} {ps : List String}
    {d1 : DepWatcher} {wd1 : World} {ev1 : List WEvent}
    (hdr : depRescan fs b.dep wd = (.ok ps, d1, wd1, ev1))
    (ha : b.firstWatchArmed = false) :
    bwRescan fs b wd = (.ok ps, { b with dep := d1 }, wd1, ev1) := by
  rw [bwRescan, hdr]
  simp [ha]

theorem bwRescan_unfold_ok_armed_noopt {fs : FS} {b : BuildW} {wd : World}
    {ps : List String} {d1 : DepWatcher} {wd1 : World} {ev1 : List WEvent}
    (hdr : depRescan fs b.dep wd = (.ok ps, d1, wd1, ev1))
    (ha : b.firstWatchArmed = true) (ho : b.rescanOpt = false) :
    bwRescan fs b wd =
      (.ok ps, ⟨d1, false, b.rescanOpt, b.buildCalls + 1⟩, wd1, ev1 ++ [.build]) := by
  rw [bwRescan, hdr]
  simp [ha, ho]

theorem bwRescan_unfold_ok_armed_opt {fs : FS} {b : BuildW} {wd : World}
    {ps : List String} {d1 : DepWatcher} {wd1 : World} {ev1 : List WEvent}
    (hdr : depRescan fs b.dep wd = (.ok ps, d1, wd1, ev1))
    (ha : b.firstWatchArmed = true) (ho : b.rescanOpt = true) :
    bwRescan fs b wd =
      (.ok ps, ⟨(depRescan fs d1 wd1).2.1, false, b.rescanOpt, b.buildCalls + 1⟩,
        (depRescan fs d1 wd1).2.2.1, (ev1 ++ [.build]) ++ (depRescan fs d1 wd1).2.2.2) := by
  rw [bwRescan, hdr]
  simp [ha, ho]

theorem bwRescan_delta (fs : FS) (b : BuildW) (wd : World) :
    countChange (bwRescan fs b wd).2.2.2 = 0 ∧
    (bwRescan fs b wd).2.1.buildCalls =
      b.buildCalls + countBuild (bwRescan fs b wd).2.2.2 ∧
    (bwRescan fs b wd).2.1.rescanOpt = b.rescanOpt ∧
    ((bwRescan fs b wd).2.1.firstWatchArmed = true ↔
      (b.firstWatchArmed = true ∧ countWatch (bwRescan fs b wd).2.2.2 = 0)) ∧
    countBuild (bwRescan fs b wd).2.2.2 =
      (if b.firstWatchArmed = true ∧ 1 ≤ countWatch (bwRescan fs b wd).2.2.2
       then 1 else 0) := by
  rcases hdr : depRescan fs b.dep wd with ⟨res, d1, wd1, ev1⟩
  have hev1 : ev1 = [] ∨ ∃ ps, res = .ok ps ∧ ev1 = [.watch ps] := by
    have := depRescan_events fs b.dep wd
    rw [hdr] at this
    exact this
  by_cases hok : ∃ ps, res = .ok ps
  · obtain ⟨ps, hps⟩ := hok
    subst hps
    have h1 : (depRescan fs b.dep wd).1 = .ok ps := by rw [hdr]
    obtain ⟨_, _, hs, wd2, _, heq⟩ := depRescan_ok_parts h1
    rw [hdr] at heq
    have hev1' : ev1 = [.watch ps] := by
      have := congrArg (fun t => t.2.2.2) heq
      simpa using this
    by_cases ha : b.firstWatchArmed = true
    · by_cases ho : b.rescanOpt = true
      · rw [bwRescan_unfold_ok_armed_opt hdr ha ho, hev1']
        simp only
        rcases depRescan_events fs d1 wd1 with hin | ⟨ps2, _, hin⟩ <;> rw [hin] <;>
          simp [countWatch_append, countChange_append, countBuild_append,
            countWatch, countChange, countBuild, WEvent.isWatch, WEvent.isChange,
            WEvent.isBuild, ha]
      · have ho' : b.rescanOpt = false := by
          revert ho
          cases b.rescanOpt <;> simp
        rw [bwRescan_unfold_ok_armed_noopt hdr ha ho', hev1']
        simp [countWatch_append, countChange_append, countBuild_append,
          countWatch, countChange, countBuild, WEvent.isWatch, WEvent.isChange,
          WEvent.isBuild, ha]
    · have ha' : b.firstWatchArmed = false := by
        revert ha
        cases b.firstWatchArmed <;> simp
      rw [bwRescan_unfold_ok_unarmed hdr ha', hev1']
      simp [countWatch, countChange, countBuild, WEvent.isWatch, WEvent.isChange,
        WEvent.isBuild, ha']
  · push_neg at hok
    have hev1' : ev1 = [] := by
      rcases hev1 with h | ⟨ps', hps', _⟩
      · exact h
      · exact absurd hps' (hok ps')
    rw [bwRescan_unfold_fail hdr hok, hev1']
    refine ⟨rfl, by simp [countBuild], rfl, ?_, by simp [countBuild, countWatch]⟩
    simp [countWatch]

theorem bwRescan_inv (fs : FS) (b : BuildW) (wd : World) (tr : List WEvent)
    (h : BWInv b tr) :
    BWInv (bwRescan fs b wd).2.1 (tr ++ (bwRescan fs b wd).2.2.2) := by
  obtain ⟨h1, h2, h3⟩ := h
  obtain ⟨d1, d2, d3, d4, d5⟩ := bwRescan_delta fs b wd
  refine ⟨?_, ?_, ?_⟩
  · rw [countBuild_append, h1, d2]
  · rw [d2, h2, countWatch_append, countChange_append, d1]
    by_cases hw : countWatch tr = 0
    · have harm : b.firstWatchArmed = true := h3.mpr hw
      rw [hw, d5]
      simp only [harm, eq_self_iff_true, true_and]
      split_ifs <;> omega
    · have harm : ¬ b.firstWatchArmed = true := fun hh => hw (h3.mp hh)
      have hb0 : (if b.firstWatchArmed = true ∧
          1 ≤ countWatch (bwRescan fs b wd).2.2.2 then 1 else 0) = 0 :=
        if_neg fun hcc => harm hcc.1
      rw [d5, hb0]
      have hw1 : 1 ≤ countWatch tr := Nat.one_le_iff_ne_zero.mpr hw
      split_ifs <;> omega
  · rw [countWatch_append, d4, h3]
    omega

theorem bwWatch_eq_rescan {fs : FS} {b : BuildW} {wd : World}
    (hs : ¬ b.dep.state = .watching) :
    bwWatch fs b wd = (some (bwRescan fs b wd).1, (bwRescan fs b wd).2.1,
      (bwRescan fs b wd).2.2.1, (bwRescan fs b wd).2.2.2) := by
  rw [bwWatch, if_neg hs]

theorem bwWatch_inv (fs : FS) (b : BuildW) (wd : World) (tr : List WEvent)
    (h : BWInv b tr) :
    BWInv (bwWatch fs b wd).2.1 (tr ++ (bwWatch fs b wd).2.2.2) := by
  by_cases hs : b.dep.state = .watching
  · have hnoop : bwWatch fs b wd = (none, b, wd, []) := by rw [bwWatch, if_pos hs]
    rw [hnoop]
    simpa using h
  · rw [bwWatch_eq_rescan hs]
    exact bwRescan_inv fs b wd tr h

theorem bwClose_inv (b : BuildW) (wd : World) (tr : List WEvent) (h : BWInv b tr) :
    BWInv (bwClose b wd).1 (tr ++ (bwClose b wd).2.2) := by
  have hb1 : (bwClose b wd).1.buildCalls = b.buildCalls := rfl
  have hb2 : (bwClose b wd).1.firstWatchArmed = b.firstWatchArmed := rfl
  have hev : (bwClose b wd).2.2 = [] ∨ (bwClose b wd).2.2 = [.close] :=
    depClose_events b.dep wd
  obtain ⟨h1, h2, h3⟩ := h
  have hcB : countBuild (tr ++ (bwClose b wd).2.2) = countBuild tr := by
    rcases hev with he | he <;>
      simp [he, countBuild_append, countBuild, WEvent.isBuild]
  have hcW : countWatch (tr ++ (bwClose b wd).2.2) = countWatch tr := by
    rcases hev with he | he <;>
      simp [he, countWatch_append, countWatch, WEvent.isWatch]
  have hcC : countChange (tr ++ (bwClose b wd).2.2) = countChange tr := by
    rcases hev with he | he <;>
      simp [he, countChange_append, countChange, WEvent.isChange]
  exact ⟨by rw [hcB, hb1, h1], by rw [hb1, hcW, hcC, h2], by rw [hb2, hcW, h3]⟩

theorem bwNotify_dead {fs : FS} {b : BuildW} {wd : World} {h : Handle}
    (hl : ¬ World.live wd h) : bwNotify fs b wd h = (b, wd, []) := by
  rw [bwNotify, if_neg hl]

theorem bwNotify_closed {fs : FS} {b : BuildW} {wd : World} {h : Handle}
    (hl : World.live wd h) (hc : b.dep.state = .closed) :
    bwNotify fs b wd h = (b, wd, []) := by
  rw [bwNotify, if_pos hl, if_pos hc]

theorem bwNotify_unfold_noopt {fs : FS} {b : BuildW} {wd : World} {h : Handle}
    (hl : World.live wd h) (hc : ¬ b.dep.state = .closed)
    (ho : b.rescanOpt = false) :
    bwNotify fs b wd h =
      (⟨b.dep, b.firstWatchArmed, b.rescanOpt, b.buildCalls + 1⟩, wd,
        [.change h.path, .build]) := by
  rw [bwNotify, if_pos hl, if_neg hc]
  simp [ho]

theorem bwNotify_unfold_opt {fs : FS} {b : BuildW} {wd : World} {h : Handle}
    (hl : World.live wd h) (hc : ¬ b.dep.state = .closed)
    (ho : b.rescanOpt = true) :
    bwNotify fs b wd h =
      ((bwRescan fs ⟨b.dep, b.firstWatchArmed, b.rescanOpt, b.buildCalls + 1⟩ wd).2.1,
        (bwRescan fs ⟨b.dep, b.firstWatchArmed, b.rescanOpt, b.buildCalls + 1⟩ wd).2.2.1,
        [.change h.path, .build] ++
          (bwRescan fs ⟨b.dep, b.firstWatchArmed, b.rescanOpt,
            b.buildCalls + 1⟩ wd).2.2.2) := by
  rw [bwNotify, if_pos hl, if_neg hc]
  simp [ho]

theorem bwNotify_inv (fs : FS) (b : BuildW) (wd : World) (hh : Handle)
    (tr : List WEvent) (hI : BWInv b tr) :
    BWInv (bwNotify fs b wd hh).1 (tr ++ (bwNotify fs b wd hh).2.2) := by
  by_cases hl : World.live wd hh
  · by_cases hc : b.dep.state = .closed
    · rw [bwNotify_closed hl hc]
      simpa using hI
    · have hI1 : BWInv ⟨b.dep, b.firstWatchArmed, b.rescanOpt, b.buildCalls + 1⟩
          (tr ++ [.change hh.path, .build]) := by
        obtain ⟨h1, h2, h3⟩ := hI
        have hB : countBuild (tr ++ [.change hh.path, .build]) = countBuild tr + 1 := by
          simp [countBuild_append, countBuild, WEvent.isBuild]
        have hC : countChange (tr ++ [.change hh.path, .build]) = countChange tr + 1 := by
          simp [countChange_append, countChange, WEvent.isChange]
        have hW : countWatch (tr ++ [.change hh.path, .build]) = countWatch tr := by
          simp [countWatch_append, countWatch, WEvent.isWatch]
        refine ⟨?_, ?_, ?_⟩
        · rw [hB, h1]
        · rw [hC, hW]
          show b.buildCalls + 1 =
            (if 1 ≤ countWatch tr then 1 else 0) + (countChange tr + 1)
          omega
        · rw [hW]
          exact h3
      by_cases ho : b.rescanOpt = true
      · rw [bwNotify_unfold_opt hl hc ho]
        have := bwRescan_inv fs ⟨b.dep, b.firstWatchArmed, b.rescanOpt, b.buildCalls + 1⟩
          wd (tr ++ [.change hh.path, .build]) hI1
        simpa [List.append_assoc] using this
      · have ho' : b.rescanOpt = false := by
          revert ho
          cases b.rescanOpt <;> simp
        rw [bwNotify_unfold_noopt hl hc ho']
        exact hI1
  · rw [bwNotify_dead hl]
    simpa using hI

theorem bwStep_inv (fs : FS) (s : BuildW × World × List WEvent) (c : BCmd)
    (h : BWInv s.1 s.2.2) : BWInv (bwStep fs s c).1 (bwStep fs s c).2.2 := by
  cases c with
  | watch => exact bwWatch_inv fs s.1 s.2.1 s.2.2 h
  | rescan => exact bwRescan_inv fs s.1 s.2.1 s.2.2 h
  | close => exact bwClose_inv s.1 s.2.1 s.2.2 h
  | notify hd => exact bwNotify_inv fs s.1 s.2.1 hd s.2.2 h

theorem bwRun_inv (fs : FS) (paths : List String) (opt : Bool) (cmds : List BCmd) :
    BWInv (bwRun fs paths opt cmds).1 (bwRun fs paths opt cmds).2.2 := by
  suffices hgen : ∀ (cs : List BCmd) (s : BuildW × World × List WEvent),
      BWInv s.1 s.2.2 →
      BWInv (cs.foldl (bwStep fs) s).1 (cs.foldl (bwStep fs) s).2.2 by
    refine hgen cmds (BuildW.init paths opt, World.init, []) ⟨rfl, ?_, ?_⟩
    · show (0 : Nat) = (if 1 ≤ countWatch ([] : List WEvent) then 1 else 0) +
        countChange ([] : List WEvent)
      decide
    · show (true = true) ↔ countWatch ([] : List WEvent) = 0
      decide
  intro cs
  induction cs with
  | nil => intro s hs; exact hs
  | cons c rest ih =>
    intro s hs
    exact ih _ (bwStep_inv fs s c hs)

/-- C4: over every `BuildWatcher` session, `Bun.build` is invoked exactly
once for the first `watch` event and exactly once per `change` event
(later `watch` events from rescans trigger no additional builds), and each
invocation is matched by exactly one `build` event in the emitted trace. -/
theorem C4_first_watch_and_changes_build (fs : FS) (paths : List String)
    (opt : Bool) (cmds : List BCmd) :
    countBuild (bwRun fs paths opt cmds).2.2 = (bwRun fs paths opt cmds).1.buildCalls ∧
    (bwRun fs paths opt cmds).1.buildCalls =
      (if 1 ≤ countWatch (bwRun fs paths opt cmds).2.2 then 1 else 0) +
        countChange (bwRun fs paths opt cmds).2.2 := by
  obtain ⟨h1, h2, _⟩ := bwRun_inv fs paths opt cmds
  exact ⟨h1, h2⟩

/-! ## C9: determinism of the scan -/

/-- C9: the scan is deterministic and idempotent — `findImports` is a pure
function of the file tree, the exclusion set and the entry set: two runs
whose entry lists describe the same JS `Set` (same elements in the same
first-occurrence order) return the same success list, or fail with the
same error; in particular repeating the very same scan on an unchanged
tree yields the identical outcome. -/
theorem C9_scan_deterministic (fs : FS) (e1 e2 : List String)
    (h : e1.dedup = e2.dedup) : findImports fs e1 = findImports fs e2 := by
  rw [findImports, findImports, h]

/-- C9 witness: a duplicated entry list and its deduplication scan
identically. -/
theorem C9_witness :
    (["a.ts", "a.ts"] : List String).dedup = (["a.ts"] : List String).dedup ∧
    findImports fsLine ["a.ts", "a.ts"] = findImports fsLine ["a.ts"] :=
  ⟨by decide, C9_scan_deterministic fsLine ["a.ts", "a.ts"] ["a.ts"] (by decide)⟩

/-! ## C10: entry paths are never validated by the scanner -/

theorem subscribeAll_fst_none (fs : FS) (p : String) (hp : fs.existsOn p = false) :
    ∀ (l : List String) (wd : World), p ∈ l → (subscribeAll fs wd l).1 = none := by
  intro l
  induction l with
  | nil =>
    intro wd hmem
    exact absurd hmem (List.not_mem_nil p)
  | cons q rest ih =>
    intro wd hmem
    by_cases hq : fs.existsOn q = true
    · have hso : subscribeOne fs wd q = (some ⟨wd.nextId, q⟩,
          ⟨wd.nextId + 1, wd.created ++ [⟨wd.nextId, q⟩], wd.disposeCalls⟩) := by
        rw [subscribeOne, if_pos hq]
      have hpq : p ∈ rest := by
        rcases List.mem_cons.mp hmem with rfl | hr
        · rw [hq] at hp
          cases hp
        · exact hr
      have hrec := ih ⟨wd.nextId + 1, wd.created ++ [⟨wd.nextId, q⟩],
        wd.disposeCalls⟩ hpq
      rcases hra : subscribeAll fs ⟨wd.nextId + 1, wd.created ++ [⟨wd.nextId, q⟩],
          wd.disposeCalls⟩ rest with ⟨o2, wd2⟩
      rw [hra] at hrec
      simp only [subscribeAll, hso, hra]
      cases o2 with
      | none => rfl
      | some hs2 => simp at hrec
    · have hq' : fs.existsOn q = false := by
        revert hq
        cases fs.existsOn q <;> simp
      have hso : subscribeOne fs wd q = (none, wd) := by
        rw [subscribeOne, if_neg]
        rw [hq']
        simp
      simp only [subscribeAll, hso]

theorem findImports_all_unexpandable (fs : FS) (paths : List String)
    (h : ∀ p ∈ paths, fs.expandable p = false) :
    findImports fs paths = some (.ok paths.dedup) := by
  have hk : scanFuel fs = (2 * fs.files.length + 3) + 2 := by
    rw [scanFuel]
  have hmem : ∀ p ∈ frontierList [("", paths.dedup)], p ∈ paths := by
    intro p hp
    have hp' : p ∈ (paths.dedup ++ []).dedup := hp
    rw [List.append_nil] at hp'
    exact List.mem_dedup.mp (List.mem_dedup.mp hp')
  have hlm : layerMap fs (frontierList [("", paths.dedup)]) = [] := by
    rw [layerMap, List.filterMap_eq_nil_iff]
    intro p hp
    simp [h p (hmem p hp)]
  have honce : findImportsOnce fs (frontierList [("", paths.dedup)]) = .ok [] := by
    rw [findImportsOnce]
    have hf : (frontierList [("", paths.dedup)]).find?
        (fun p => fs.expandable p && fs.resolveFails p) = none := by
      rw [List.find?_eq_none]
      intro p hp
      simp [h p (hmem p hp)]
    rw [hf, hlm]
  have h1 : scanLoop fs ((2 * fs.files.length + 3) + 2) [] [("", paths.dedup)] =
      scanLoop fs ((2 * fs.files.length + 3) + 1) [("", paths.dedup)] [] := by
    show (match findImportsOnce fs (frontierList [("", paths.dedup)]) with
      | .error e => some (.error e)
      | .ok next =>
        scanLoop fs ((2 * fs.files.length + 3) + 1) [("", paths.dedup)] next) =
      scanLoop fs ((2 * fs.files.length + 3) + 1) [("", paths.dedup)] []
    rw [honce]
  have h2 : scanLoop fs ((2 * fs.files.length + 3) + 1) [("", paths.dedup)]
      ([] : PathsMap) = some (.ok (paths.dedup ++ []).dedup) := rfl
  have h3 : (paths.dedup ++ []).dedup = paths.dedup := by
    rw [List.append_nil]
    exact List.dedup_eq_self.mpr (List.nodup_dedup paths)
  rw [findImports, hk, h1, h2, h3]

/-- C10: the scanner never validates entry paths: when no entry path is
expandable (missing on disk, extension outside `.js/.jsx/.ts/.tsx`, or
unparsable), `findImports` does not fail — it skips every entry at
expansion time (their imports are never examined) yet returns exactly the
deduplicated entry set, so each such entry is still in the watch set —
and a missing entry surfaces as a failure only inside `rescan`, when
`watch()` subscribes the filesystem notifier to it. -/
theorem C10_entries_unvalidated_until_subscribe (fs : FS) (paths : List String)
    (hunexp : ∀ p ∈ paths, fs.expandable p = false) :
    findImports fs paths = some (.ok paths.dedup) ∧
    (∀ p ∈ paths, p ∈ paths.dedup) ∧
    ∀ (wd : World) (p : String), p ∈ paths → fs.existsOn p = false →
      (depRescan fs (DepWatcher.init paths) wd).1 = .errSubscribe := by
  have hfi := findImports_all_unexpandable fs paths hunexp
  refine ⟨hfi, fun p hp => List.mem_dedup.mpr hp, ?_⟩
  intro wd p hp hex
  have hc : (DepWatcher.init paths).state ≠ .closed := fun hcc =>
    WState.noConfusion hcc
  have hsub : (subscribeAll fs (disposeAll wd (DepWatcher.init paths).watchers)
      paths.dedup).1 = none :=
    subscribeAll_fst_none fs p hex paths.dedup _ (List.mem_dedup.mpr hp)
  rcases hra : subscribeAll fs (disposeAll wd (DepWatcher.init paths).watchers)
      paths.dedup with ⟨o, wd2⟩
  rw [hra] at hsub
  have ho : o = none := hsub
  subst ho
  rw [depRescan_unfold_subfail hc hfi hra]

/-- C10 witness: a single entry that does not exist on disk — the scan
succeeds returning exactly that entry, and a fresh watcher's `rescan`
fails at the notifier-subscription step. -/
theorem C10_witness :
    (∀ p ∈ (["entry.ts"] : List String), fsGhost.expandable p = false) ∧
    findImports fsGhost ["entry.ts"] = some (.ok (["entry.ts"] : List String).dedup) ∧
    "entry.ts" ∈ (["entry.ts"] : List String).dedup ∧
    (depRescan fsGhost (DepWatcher.init ["entry.ts"]) World.init).1 = .errSubscribe := by
  have hunexp : ∀ p ∈ (["entry.ts"] : List String), fsGhost.expandable p = false := by
    decide
  have h := C10_entries_unvalidated_until_subscribe fsGhost ["entry.ts"] hunexp
  exact ⟨hunexp, h.1, h.2.1 "entry.ts" (by decide),
    h.2.2 World.init "entry.ts" (by decide) (by decide)⟩

end BunBuildWatch
